/-
Verification of the kopf operator-framework core against its specification.

The development shallowly embeds the Python sources:
  * kopf/structs/diffs.py      (diff_iter, reduce_iter, DiffItem)
  * kopf/structs/progress.py   (the progress store operations)
  * kopf/structs/resources.py  (Resource.get_url)
  * kopf/clients/fetching.py   (read_crd, read_obj error handling)
  * kopf/engines/sleeping.py   (sleep_or_wait)
  * kopf/reactor/discovery.py  (adjust_watchers)

JSON-shaped Python values (dicts, lists, scalars, None) are embedded as the
inductive type `Value`.  Python dictionaries are association lists; a
well-formedness predicate (`Value.wf`) asserts that every dictionary has
distinct keys, which every real Python dict satisfies.  On such canonical
values, structural equality coincides with Python's `==` on dicts.
Timestamps are carried as opaque ISO8601 strings ("now" is a parameter);
`datetime.fromisoformat` is modelled as the identity on that representation.
-/
import Mathlib

/-- A JSON-shaped Python value: None, bool, int, str, list, or dict.
Dicts are association lists in insertion order, as in CPython. -/
inductive Value where
  | null : Value
  | bool (b : Bool) : Value
  | int (n : Int) : Value
  | str (s : String) : Value
  | list (xs : List Value) : Value
  | map (m : List (String × Value)) : Value
deriving Repr

mutual

/-- Structural (Python `==`) equality test on values. -/
def beqV : Value → Value → Bool
  | .null, .null => true
  | .bool a, .bool b => a == b
  | .int a, .int b => a == b
  | .str a, .str b => a == b
  | .list xs, .list ys => beqL xs ys
  | .map a, .map b => beqM a b
  | _, _ => false

/-- Pointwise equality of value lists. -/
def beqL : List Value → List Value → Bool
  | [], [] => true
  | x :: xs, y :: ys => beqV x y && beqL xs ys
  | _, _ => false

/-- Pointwise equality of key-value lists. -/
def beqM : List (String × Value) → List (String × Value) → Bool
  | [], [] => true
  | (k, v) :: xs, (k', v') :: ys => k == k' && beqV v v' && beqM xs ys
  | _, _ => false

end

theorem beqV_iff : ∀ a b, (beqV a b = true ↔ a = b) := by
  apply beqV.induct
    (motive_2 := fun xs ys => beqM xs ys = true ↔ xs = ys)
    (motive_3 := fun xs ys => beqL xs ys = true ↔ xs = ys)
  all_goals intros
  case case7 =>
    rename_i t x h1 h2 h3 h4 h5 h6
    constructor
    · intro hb
      exfalso
      cases t <;> cases x <;> simp_all [beqV]
    · intro he
      subst he
      cases t <;> simp_all [beqV]
  all_goals simp_all [beqV, beqL, beqM]
  case case10 =>
    rename_i t x h1 h2
    intro he; subst he
    cases t with
    | nil => exact h1 rfl rfl
    | cons a as => exact h2 a as a as rfl rfl
  case case13 =>
    rename_i t x h1 h2
    intro he; subst he
    cases t with
    | nil => exact h1 rfl rfl
    | cons a as => exact h2 a.1 a.2 as a.1 a.2 as (by simp) (by simp)

instance : DecidableEq Value := fun a b => decidable_of_iff _ (beqV_iff a b)

/-- Association-list lookup: Python `d[k]` / `k in d`, first matching key. -/
def alookup {κ α : Type} [DecidableEq κ] : List (κ × α) → κ → Option α
  | [], _ => none
  | (k', v) :: rest, k => if k' = k then some v else alookup rest k

/-- Association-list store: Python `d[k] = v`.  Replaces the value in place
when the key exists, appends at the end otherwise (dict insertion order). -/
def aset {κ α : Type} [DecidableEq κ] : List (κ × α) → κ → α → List (κ × α)
  | [], k, v => [(k, v)]
  | (k', v') :: rest, k, v =>
      if k' = k then (k, v) :: rest else (k', v') :: aset rest k v

/-- Python `d.get(k, default)` on a value expected to be a dict. -/
def Value.get (v : Value) (k : String) (dflt : Value) : Value :=
  match v with
  | .map m => (alookup m k).getD dflt
  | _ => dflt

/-- Key presence: `k in d` for a dict-shaped value. -/
def Value.hasKey (v : Value) (k : String) : Bool :=
  match v with
  | .map m => (alookup m k).isSome
  | _ => false

/-- The raw lookup of a key in a dict-shaped value (`none` when absent). -/
def Value.lookup (v : Value) (k : String) : Option Value :=
  match v with
  | .map m => alookup m k
  | _ => none

/-- Python dict `d.update(kvs)`: sets each key of `kvs` in order.  On a
non-dict value Python raises; the crash is modelled as the unchanged value
(such states are excluded by the theorems' hypotheses). -/
def Value.update (v : Value) (kvs : List (String × Value)) : Value :=
  match v with
  | .map m => .map (kvs.foldl (fun acc kv => aset acc kv.1 kv.2) m)
  | v => v

/-- The empty dict `{}`. -/
def emptyMap : Value := .map []

/-- A chain of Python `setdefault` calls followed by an in-place mutation:
`updPath v [k1, ..., kn] f` mutates `v.setdefault(k1, {})...setdefault(kn, {})`
by `f`.  Present intermediate values are descended into; absent ones become
`{}`.  A present non-dict intermediate makes Python raise; the crash is
modelled as the unchanged value (excluded by the theorems' hypotheses). -/
def updPath : Value → List String → (Value → Value) → Value
  | v, [], f => f v
  | .map m, k :: rest, f =>
      .map (aset m k (updPath ((alookup m k).getD emptyMap) rest f))
  | v, _ :: _, _ => v

/-- Python truthiness of a JSON-shaped value (`bool(v)`). -/
def truthy : Value → Bool
  | .null => false
  | .bool b => b
  | .int n => n != 0
  | .str s => s ≠ ""
  | .list xs => xs ≠ []
  | .map m => m ≠ []

/-- Python `a or b` on values: `a` when truthy, else `b`. -/
def pyOr (a b : Value) : Value := if truthy a then a else b

/-- Distinct-key test for a key list (Python dicts always satisfy it). -/
def nodupKeysB : List String → Bool
  | [] => true
  | k :: ks => !(ks.contains k) && nodupKeysB ks

mutual

/-- Well-formedness: every dict in the value has distinct keys.  Real Python
dicts always satisfy this; on such values structural equality is `==`. -/
def Value.wf : Value → Bool
  | .null => true
  | .bool _ => true
  | .int _ => true
  | .str _ => true
  | .list xs => wfL xs
  | .map m => nodupKeysB (m.map Prod.fst) && wfM m

/-- All values of a list are well-formed. -/
def wfL : List Value → Bool
  | [] => true
  | x :: xs => x.wf && wfL xs

/-- All values of a key-value list are well-formed. -/
def wfM : List (String × Value) → Bool
  | [] => true
  | (_, v) :: rest => v.wf && wfM rest

end

/- ===================== kopf/structs/resources.py ===================== -/

/-- An immutable reference to a resource kind (kopf/structs/resources.py). -/
structure Resource where
  group : String
  version : String
  plural : String
deriving DecidableEq, Repr

/-- The embedding of `'/'.join(parts)`. -/
def joinSlash : List String → String
  | [] => ""
  | [x] => x
  | x :: xs => x ++ "/" ++ joinSlash xs

/-- `Resource._build_url` without the query-string part: keeps the truthy
parts (dropping `None` and `""`) and joins them with `/`.  Every claim
instantiates `params=None`, for which the query string is empty, and
`server=None`; both are therefore omitted from the embedding. -/
def Resource.build_url (parts : List (Option String)) : String :=
  joinSlash (((parts.filterMap id).filter (fun p => p ≠ "")))

/-- `Resource.get_url` (kopf/structs/resources.py).  Returns `none` for the
`ValueError` raised when a subresource is requested without a name. -/
def Resource.get_url (r : Resource) (ns name subresource : Option String) :
    Option String :=
  if subresource.isSome ∧ name.isNone then none
  else some (Resource.build_url [
    some (if r.group = "" ∧ r.version = "v1" then "/api" else "/apis"),
    some r.group,
    some r.version,
    (if ns.isSome then some "namespaces" else none),
    ns,
    some r.plural,
    name,
    subresource])

/-- The URL shape as the amended claim words it: prefix `/api/v1` exactly for
the legacy core group, else `/apis/` followed by the group (omitted when
empty) and the version; then `namespaces/{ns}` when namespaced, the plural,
and the optional name and subresource, a subresource requiring a name. -/
def Resource.get_url_spec (r : Resource) (ns name subresource : Option String) :
    Option String :=
  if subresource.isSome ∧ name.isNone then none
  else some (
    (if r.group = "" ∧ r.version = "v1" then "/api/v1"
     else "/apis/" ++ (if r.group = "" then "" else r.group ++ "/") ++ r.version)
    ++ (match ns with | some n => "/namespaces/" ++ n | none => "")
    ++ "/" ++ r.plural
    ++ (match name with | some n => "/" ++ n | none => "")
    ++ (match subresource with | some s => "/" ++ s | none => ""))

/- ===================== kopf/clients/fetching.py ===================== -/

/-- The outcome of the underlying `session.get` + `raise_for_status`:
either a JSON body, or an `aiohttp.ClientResponseError` with an HTTP status. -/
inductive HttpOutcome where
  | success (body : Value) : HttpOutcome
  | failure (status : Nat) : HttpOutcome
deriving DecidableEq, Repr

/-- What a fetching call does: return the body, return the caller-supplied
default, or let the error escalate. -/
inductive FetchResult (α : Type) where
  | returned (body : Value) : FetchResult α
  | defaulted (d : α) : FetchResult α
  | raised (status : Nat) : FetchResult α
deriving DecidableEq, Repr

/-- `read_crd` (kopf/clients/fetching.py): on `ClientResponseError` with
status 403 or 404 and a supplied default, swallow the error and return the
default; otherwise re-raise.  The `_UNSET` sentinel is `Option`. -/
def read_crd {α : Type} (response : HttpOutcome) (default : Option α) :
    FetchResult α :=
  match response with
  | .success body => .returned body
  | .failure status =>
      match default with
      | some d => if status = 403 ∨ status = 404 then .defaulted d
                  else .raised status
      | none => .raised status

/-- `read_obj` (kopf/clients/fetching.py): the namespace is dropped for
cluster-scoped resources, then the same 403/404-with-default handling as
`read_crd` applies to the GET outcome. -/
def read_obj {α : Type} (is_namespaced : Bool) (ns : Option String)
    (response : Option String → HttpOutcome) (default : Option α) :
    FetchResult α :=
  let ns := if is_namespaced then ns else none
  match response ns with
  | .success body => .returned body
  | .failure status =>
      match default with
      | some d => if status = 403 ∨ status = 404 then .defaulted d
                  else .raised status
      | none => .raised status

/- ===================== kopf/engines/sleeping.py ===================== -/

/-- `sleep_or_wait` (kopf/engines/sleeping.py).  Time is exact rational
arithmetic (Python floats are idealised as rationals).  The asyncio wakeup
event is abstracted by `wakeupAt`: the instant, measured from the start of
the sleep, at which the event becomes set (`none` = never).  `wait_for`
returns early when that instant precedes the timeout, and raises
`TimeoutError` otherwise; the measured `duration` is idealised as exactly
`wakeupAt`. -/
def sleep_or_wait (delays : List (Option ℚ)) (wakeupAt : Option ℚ) : Option ℚ :=
  let actual_delays := delays.filterMap id
  let minimal_delay : ℚ :=
    match actual_delays with
    | [] => 0
    | d :: ds => ds.foldl min d
  if minimal_delay ≤ 0 then none
  else
    match wakeupAt with
    | some t => if t < minimal_delay then some (max 0 (minimal_delay - t))
                else none
    | none => none

/-- The minimum of the non-null delays (0 when there are none), as computed
by `sleep_or_wait` before deciding whether to sleep at all. -/
def minimal_delay_of (delays : List (Option ℚ)) : ℚ :=
  match delays.filterMap id with
  | [] => 0
  | d :: ds => ds.foldl min d

/- ===================== kopf/structs/progress.py ===================== -/

/-- `body.get('status', {}).get('kopf', {}).get('progress', {})` — the
progress map of a document (progress.py reads it this way in every reader). -/
def kopf_progress (doc : Value) : Value :=
  ((doc.get "status" emptyMap).get "kopf" emptyMap).get "progress" emptyMap

/-- `progress.get(handler.id, {})` — one handler's progress record. -/
def progress_record (doc : Value) (handler : String) : Value :=
  (kopf_progress doc).get handler emptyMap

/-- `is_started` (progress.py): `handler.id in progress` on the body. -/
def is_started (body : Value) (handler : String) : Bool :=
  (kopf_progress body).hasKey handler

/-- `is_finished` (progress.py): the Python value `success or failure`,
both read from the body with default `None`. -/
def is_finished (body : Value) (handler : String) : Value :=
  pyOr ((progress_record body handler).get "success" .null)
       ((progress_record body handler).get "failure" .null)

/-- `get_awake_time` (progress.py): the `delayed` timestamp from the body
(`fromisoformat` is the identity on the string representation). -/
def get_awake_time (body : Value) (handler : String) : Value :=
  (progress_record body handler).get "delayed" .null

/-- `is_sleeping` (progress.py): not finished, a `delayed` timestamp exists,
and it is still in the future.  ISO8601 strings of equal format compare
chronologically as strings, so `ts > now` is the string order. -/
def is_sleeping (body : Value) (handler : String) (now : String) : Bool :=
  let ts := get_awake_time body handler
  !(truthy (is_finished body handler)) &&
    (match ts with
     | .str s => decide (now < s)
     | _ => false)

/-- `is_awakened` (progress.py): neither finished nor sleeping. -/
def is_awakened (body : Value) (handler : String) (now : String) : Bool :=
  !(truthy (is_finished body handler)) && !(is_sleeping body handler now)

/-- `get_start_time` (progress.py): the `started` timestamp, read from the
patch and falling back to the body via Python `or`. -/
def get_start_time (body patch : Value) (handler : String) : Value :=
  pyOr ((progress_record patch handler).get "started" .null)
       ((progress_record body handler).get "started" .null)

/-- `get_retry_count` (progress.py): `progress.get(id, {}).get('retries', 0)`,
read from the body only. -/
def get_retry_count (body : Value) (handler : String) : Value :=
  (progress_record body handler).get "retries" (.int 0)

/-- The stored retry count as an integer.  Python would raise on a non-int
`retries` value when computing `retry + 1`; such bodies are excluded by the
theorems' hypotheses, and default to 0 here. -/
def retryInt (body : Value) (handler : String) : Int :=
  match get_retry_count body handler with
  | .int n => n
  | _ => 0

/-- `set_start_time` (progress.py): writes `started` (the current instant,
passed as `now`) into the patch's progress record. -/
def set_start_time (body patch : Value) (handler : String) (now : String) :
    Value :=
  updPath patch ["status", "kopf", "progress", handler]
    (fun rec => rec.update [("started", .str now)])

/-- `set_awake_time` (progress.py): writes `delayed` into the patch's
progress record — the precomputed `utcnow + delay` timestamp when a delay
was given, `None` otherwise (`ts` carries that already-computed value). -/
def set_awake_time (body patch : Value) (handler : String)
    (ts : Option String) : Value :=
  updPath patch ["status", "kopf", "progress", handler]
    (fun rec => rec.update
      [("delayed", match ts with | some s => .str s | none => .null)])

/-- `set_retry_time` (progress.py): increments `retries` (from the body's
count) and then delegates to `set_awake_time`. -/
def set_retry_time (body patch : Value) (handler : String)
    (ts : Option String) : Value :=
  let patch := updPath patch ["status", "kopf", "progress", handler]
    (fun rec => rec.update [("retries", .int (retryInt body handler + 1))])
  set_awake_time body patch handler ts

/-- `store_failure` (progress.py): records `stopped`, `failure: true`,
`retries + 1` and the error message in the patch's progress record. -/
def store_failure (body patch : Value) (handler : String) (now msg : String) :
    Value :=
  updPath patch ["status", "kopf", "progress", handler]
    (fun rec => rec.update
      [("stopped", .str now),
       ("failure", .bool true),
       ("retries", .int (retryInt body handler + 1)),
       ("message", .str msg)])

/-- `store_success` (progress.py): records `stopped`, `success: true`,
`retries + 1` and a null message in the patch's progress record; when a
result is provided, additionally merges its keys into
`patch['status'][handler]`. -/
def store_success (body patch : Value) (handler : String) (now : String)
    (result : Option (List (String × Value))) : Value :=
  let patch := updPath patch ["status", "kopf", "progress", handler]
    (fun rec => rec.update
      [("stopped", .str now),
       ("success", .bool true),
       ("retries", .int (retryInt body handler + 1)),
       ("message", .null)])
  match result with
  | none => patch
  | some r => updPath patch ["status", handler] (fun v => v.update r)

/-- `purge_progress` (progress.py): sets `status.kopf.progress` to `None`
and `status.kopf.digest` to the given digest (`None` when omitted, as
`digest=None` is the Python default). -/
def purge_progress (body patch : Value) (digest : Value) : Value :=
  let patch := updPath patch ["status", "kopf"]
    (fun kopf => match kopf with
      | .map m => .map (aset m "progress" .null)
      | v => v)
  updPath patch ["status", "kopf"]
    (fun kopf => match kopf with
      | .map m => .map (aset m "digest" digest)
      | v => v)

/-- The progress-store write operations of claim C4, with the current
instant / precomputed timestamps carried in the operation. -/
inductive ProgressOp where
  | opStart (handler : String) (now : String) : ProgressOp
  | opAwake (handler : String) (ts : Option String) : ProgressOp
  | opRetry (handler : String) (ts : Option String) : ProgressOp
  | opSuccess (handler : String) (now : String)
      (result : Option (List (String × Value))) : ProgressOp
  | opFailure (handler : String) (now : String) (msg : String) : ProgressOp
deriving DecidableEq, Repr

/-- The handler a progress operation acts on. -/
def ProgressOp.handler : ProgressOp → String
  | .opStart h _ => h
  | .opAwake h _ => h
  | .opRetry h _ => h
  | .opSuccess h _ _ => h
  | .opFailure h _ _ => h

/-- Whether a progress operation is a `store_failure`. -/
def ProgressOp.isFailureOp : ProgressOp → Bool
  | .opFailure _ _ _ => true
  | _ => false

/-- Whether a progress operation is a `store_success`. -/
def ProgressOp.isSuccessOp : ProgressOp → Bool
  | .opSuccess _ _ _ => true
  | _ => false

/-- Apply one progress-store operation to the accumulating patch.  The body
is the live object: it is read (for retry counts) but never written. -/
def applyOp (body patch : Value) : ProgressOp → Value
  | .opStart h now => set_start_time body patch h now
  | .opAwake h ts => set_awake_time body patch h ts
  | .opRetry h ts => set_retry_time body patch h ts
  | .opSuccess h now result => store_success body patch h now result
  | .opFailure h now msg => store_failure body patch h now msg

/-- Apply a sequence of progress-store operations within one cycle. -/
def applyOps (body patch : Value) (ops : List ProgressOp) : Value :=
  ops.foldl (applyOp body) patch

/-- Reading a chain of keys with `{}` defaults: the value at a dotted path,
as the progress readers do (`doc.get(k1, {}).get(k2, {})...`). -/
def readPath (v : Value) (ks : List String) : Value :=
  ks.foldl (fun acc k => acc.get k emptyMap) v

/-- The dicts along a key path are really dicts (or absent): what the
`setdefault` chains need in order not to raise. -/
def cleanAlong : Value → List String → Bool
  | _, [] => true
  | .map m, k :: rest =>
      (match alookup m k with
       | none => true
       | some w => cleanAlong w rest)
  | _, _ :: _ => false

/-- Every value of a dict is itself a dict (vacuously true for `{}`,
false for non-dicts). -/
def entriesAreMaps : Value → Bool
  | .map m => m.all (fun kv => match kv.2 with | .map _ => true | _ => false)
  | _ => false

/-- A document whose `status`, `status.kopf`, `status.kopf.progress` and
every progress record are each a dict when present — anything else makes
the Python write operations raise.  The top level must be a dict. -/
def progressClean (doc : Value) : Bool :=
  cleanAlong doc ["status", "kopf", "progress"] &&
  entriesAreMaps (kopf_progress doc)

/-- One progress field of the merged (body ⊕ patch) record for a handler:
under `application/merge-patch+json` (spec §6), a leaf field of the merged
document is the patch's value when the patch's record carries the key, and
the body's value otherwise.  Modelled from the spec: the PATCH/merge step
itself happens outside this repository's sources. -/
def merged_field (body patch : Value) (handler field : String) : Value :=
  match (progress_record patch handler).lookup field with
  | some v => v
  | none => (progress_record body handler).get field .null

/- ===================== kopf/reactor/discovery.py ===================== -/

/-- `adjust_watchers` (kopf/reactor/discovery.py), with the task machinery
abstracted: `spawn` stands for `asyncio.create_task(queueing.watcher(...))`
and produces the task value stored in the mapping; `τ` is the task type.
First phase: for every `(namespace, resource)` in the product of the
dimensions, spawn a watcher if the key is absent.  Second phase: every
watcher whose namespace or resource left the dimensions is cancelled,
awaited, and removed.  Returns the adjusted mapping together with the list
of cancelled-and-awaited tasks. -/
def adjust_watchers {τ : Type} (spawn : String × Resource → τ)
    (namespaces : List String) (ress : List Resource)
    (watchers : List ((String × Resource) × τ)) :
    List ((String × Resource) × τ) × List τ :=
  let product := namespaces.flatMap (fun ns => ress.map (fun r => (ns, r)))
  let ws1 := product.foldl
    (fun ws key => if (alookup ws key).isSome then ws
                   else ws ++ [(key, spawn key)])
    watchers
  let keep := fun (kv : (String × Resource) × τ) =>
    namespaces.contains kv.1.1 && ress.contains kv.1.2
  (ws1.filter keep, (ws1.filter (fun kv => !(keep kv))).map Prod.snd)

/- ===================== kopf/structs/diffs.py ===================== -/

/-- `DiffOperation` (diffs.py): the kind of a diff item. -/
inductive DiffOperation where
  | add : DiffOperation
  | change : DiffOperation
  | remove : DiffOperation
deriving DecidableEq, Repr

/-- `DiffItem` (diffs.py): `(operation, field, old, new)`. -/
structure DiffItem where
  operation : DiffOperation
  field : List String
  old : Value
  new : Value
deriving DecidableEq, Repr

/-- The Python `type()` tag of a value, for `type(a) != type(b)`. -/
def Value.tag : Value → Nat
  | .null => 0
  | .bool _ => 1
  | .int _ => 2
  | .str _ => 3
  | .list _ => 4
  | .map _ => 5

/-- The value stored under a key, `None` when absent — `b[key]` for a key
known to be present, and the null of a freshly added/removed side. -/
def valueAt (m : List (String × Value)) (k : String) : Value :=
  (alookup m k).getD .null

/-- A useful size bound: looking a key up never grows the value. -/
theorem sizeOf_valueAt_lt (m : List (String × Value)) (k : String) :
    sizeOf (valueAt m k) < sizeOf (Value.map m) := by
  rw [valueAt]
  induction m with
  | nil => simp [alookup]
  | cons kv rest ih =>
      rw [alookup]
      by_cases h : kv.1 = k
      · simp only [h, if_pos rfl]
        rcases kv with ⟨k', v⟩
        simp
        omega
      · simp only [if_neg h]
        rcases kv with ⟨k', v⟩
        simp at ih ⊢
        omega

/-- The size of the null value is below any dict's size. -/
theorem sizeOf_null_lt (m : List (String × Value)) :
    sizeOf Value.null < sizeOf (Value.map m) := by
  cases m <;> simp

/-- `diff_iter` (diffs.py): the structural diff of two values.

Python iterates the key sets `b - a`, `a - b` and `a ∩ b` (frozensets,
whose order is unspecified); the embedding iterates each group in the
respective dict's insertion order. -/
def diff_iter (a b : Value) (path : List String) : List DiffItem :=
  if a = b then []
  else if a = .null then [⟨.add, path, a, b⟩]
  else if b = .null then [⟨.remove, path, a, b⟩]
  else if a.tag ≠ b.tag then [⟨.change, path, a, b⟩]
  else match a, b with
  | .map ma, .map mb =>
      ((mb.map Prod.fst).filter (fun k => (alookup ma k).isNone)).flatMap
        (fun k => diff_iter .null (valueAt mb k) (path ++ [k])) ++
      ((ma.map Prod.fst).filter (fun k => (alookup mb k).isNone)).flatMap
        (fun k => diff_iter (valueAt ma k) .null (path ++ [k])) ++
      ((ma.map Prod.fst).filter (fun k => (alookup mb k).isSome)).flatMap
        (fun k => diff_iter (valueAt ma k) (valueAt mb k) (path ++ [k]))
  | _, _ => [⟨.change, path, a, b⟩]
termination_by sizeOf a + sizeOf b
decreasing_by
  · have h1 := sizeOf_null_lt ma
    have h2 := sizeOf_valueAt_lt mb k
    simp at *
    omega
  · have h1 := sizeOf_valueAt_lt ma k
    have h2 := sizeOf_null_lt mb
    simp at *
    omega
  · have h1 := sizeOf_valueAt_lt ma k
    have h2 := sizeOf_valueAt_lt mb k
    simp at *
    omega

/-- `diff` (diffs.py): the whole diff of two values, at the root path. -/
def diff (a b : Value) : List DiffItem :=
  diff_iter a b []

/-- Modelled from the spec: `dicts.resolve(d, path, default=None,
assume_empty=True)` from module `kopf.structs.dicts`, which is absent from
the sources.  Claim C1 and the `reduce_iter` docstring describe it: the
value is walked along the path; absent keys and `None` parents resolve to
the empty/None default, while a present non-dict parent "leads to errors"
(`none` here). -/
def resolve : Value → List String → Option Value
  | v, [] => some v
  | .null, _ :: _ => some .null
  | .map m, k :: rest =>
      (match alookup m k with
       | some w => resolve w rest
       | none => some .null)
  | _, _ :: _ => none

/-- One step of `reduce_iter` (diffs.py), for a single diff item:
  * an empty path returns the item as-is;
  * a field extending the path is re-based below the path;
  * a field that is a proper prefix of the path resolves both sides at the
    remaining tail and re-diffs them (`none` when a resolution errors);
  * anything else is outside the path and dropped. -/
def reduce_item (it : DiffItem) (path : List String) : Option (List DiffItem) :=
  if path = [] then some [it]
  else if it.field.take path.length = path then
    some [⟨it.operation, it.field.drop path.length, it.old, it.new⟩]
  else if path.take it.field.length = it.field then
    match resolve it.old (path.drop it.field.length),
          resolve it.new (path.drop it.field.length) with
    | some o, some n => some (diff_iter o n [])
    | _, _ => none
  else some []

/-- `reduce_iter` (diffs.py): reduce a diff to the given path, concatenating
the per-item results; `none` when a resolution inside errors. -/
def reduce_iter (d : List DiffItem) (path : List String) :
    Option (List DiffItem) :=
  match d with
  | [] => some []
  | it :: rest =>
      match reduce_item it path, reduce_iter rest path with
      | some xs, some ys => some (xs ++ ys)
      | _, _ => none

/-- `reduce` (diffs.py) / `Diff.__getitem__` with a field specifier:
the diff reduced to the field. -/
def reduce (d : List DiffItem) (path : List String) : Option (List DiffItem) :=
  reduce_iter d path

/-- Re-prefix a diff item's field with a path (how a sub-diff embeds). -/
def shiftItem (pre : List String) (it : DiffItem) : DiffItem :=
  ⟨it.operation, pre ++ it.field, it.old, it.new⟩

/-- The union of two dicts' key lists: all of the first dict's keys, then
the second's keys that are not in the first. -/
def unionKeys (ma mb : List (String × Value)) : List String :=
  ma.map Prod.fst ++ (mb.map Prod.fst).filter (fun k => (alookup ma k).isNone)

/-- A document whose top level and, when present, `status` and
`status.kopf` are dicts — what `purge_progress` needs not to raise. -/
def statusKopfClean (doc : Value) : Bool :=
  match doc with
  | .map m =>
      (match alookup m "status" with
       | none => true
       | some (.map ms) =>
           (match alookup ms "kopf" with
            | none => true
            | some (.map _) => true
            | some _ => false)
       | some _ => false)
  | _ => false

/- ============ Basic lemmas about the diff engine ============ -/


theorem diff_iter_self (a : Value) (p : List String) : diff_iter a a p = [] := by
  rw [diff_iter.eq_def]
  simp

theorem diff_iter_add (a b : Value) (p : List String) (h : a ≠ b)
    (ha : a = .null) : diff_iter a b p = [⟨.add, p, a, b⟩] := by
  rw [diff_iter.eq_def]
  simp [h, ha]
  exact fun hb => h (by rw [ha, hb])

theorem diff_iter_remove (a b : Value) (p : List String) (h : a ≠ b)
    (ha : a ≠ .null) (hb : b = .null) : diff_iter a b p = [⟨.remove, p, a, b⟩] := by
  rw [diff_iter.eq_def]
  simp [h, ha, hb]

theorem diff_iter_change_tag (a b : Value) (p : List String) (h : a ≠ b)
    (ha : a ≠ .null) (hb : b ≠ .null) (ht : a.tag ≠ b.tag) :
    diff_iter a b p = [⟨.change, p, a, b⟩] := by
  rw [diff_iter.eq_def]
  simp [h, ha, hb, ht]

theorem diff_iter_change_flat (a b : Value) (p : List String) (h : a ≠ b)
    (ha : a ≠ .null) (hb : b ≠ .null) (hm : ∀ ma, a ≠ .map ma) :
    diff_iter a b p = [⟨.change, p, a, b⟩] := by
  rw [diff_iter.eq_def]
  by_cases ht : a.tag = b.tag
  · simp [h, ha, hb, ht]
    cases a <;> cases b <;> simp_all [Value.tag]
  · simp [h, ha, hb, ht]

theorem diff_iter_map_map (ma mb : List (String × Value)) (p : List String)
    (h : Value.map ma ≠ Value.map mb) :
    diff_iter (.map ma) (.map mb) p =
      ((mb.map Prod.fst).filter (fun k => (alookup ma k).isNone)).flatMap
        (fun k => diff_iter .null (valueAt mb k) (p ++ [k])) ++
      ((ma.map Prod.fst).filter (fun k => (alookup mb k).isNone)).flatMap
        (fun k => diff_iter (valueAt ma k) .null (p ++ [k])) ++
      ((ma.map Prod.fst).filter (fun k => (alookup mb k).isSome)).flatMap
        (fun k => diff_iter (valueAt ma k) (valueAt mb k) (p ++ [k])) := by
  rw [diff_iter.eq_def]
  simp [h, Value.tag]

theorem flatMap_shift (keys : List String) (f g : String → Value)
    (q : List String)
    (IH : ∀ k q', diff_iter (f k) (g k) q'
          = ((diff_iter (f k) (g k) []).map (shiftItem q'))) :
    (keys.flatMap fun k => diff_iter (f k) (g k) (q ++ [k]))
    = ((keys.flatMap fun k => diff_iter (f k) (g k) ([] ++ [k])).map
        (shiftItem q)) := by
  induction keys with
  | nil => simp
  | cons k ks ih =>
      simp only [List.flatMap_cons, List.map_append]
      rw [ih, IH k (q ++ [k]), IH k ([] ++ [k])]
      congr 1
      rw [List.map_map]
      apply List.map_congr_left
      intro it _
      simp [shiftItem]

/-- `diff_iter` at a path is the root diff with the path prefixed to every
field. -/
theorem diff_iter_shift (a b : Value) : ∀ q,
    diff_iter a b q = (diff_iter a b []).map (shiftItem q) := by
  refine diff_iter.induct
    (motive := fun a b _ => ∀ q,
      diff_iter a b q = (diff_iter a b []).map (shiftItem q))
    ?_ ?_ ?_ ?_ ?_ ?_ a b []
  · intro b _ q
    simp [diff_iter_self]
  · intro b _ hb q
    rw [diff_iter_add _ _ _ (fun h => hb h) rfl,
        diff_iter_add _ _ _ (fun h => hb h) rfl]
    simp [shiftItem]
  · intro a _ ha _ q
    have hne : a ≠ Value.null := ha
    have hab : a ≠ Value.null := ha
    rw [diff_iter_remove _ _ _ hab hne rfl,
        diff_iter_remove _ _ _ hab hne rfl]
    simp [shiftItem]
  · intro a b _ hab ha hb ht q
    rw [diff_iter_change_tag _ _ _ hab ha hb ht,
        diff_iter_change_tag _ _ _ hab ha hb ht]
    simp [shiftItem]
  · intro _ ma mb _ _ hne _ ih1 ih2 ih3 q
    rw [diff_iter_map_map _ _ q hne, diff_iter_map_map _ _ [] hne]
    rw [List.map_append, List.map_append]
    congr 1
    congr 1
    · exact flatMap_shift _ (fun _ => Value.null) (valueAt mb) q ih1
    · exact flatMap_shift _ (valueAt ma) (fun _ => Value.null) q ih2
    · exact flatMap_shift _ (valueAt ma) (valueAt mb) q ih3
  · intro a b _ hab ha hb ht hm q
    have hm' : ∀ m, a ≠ Value.map m := by
      intro m hma
      cases b <;> simp_all [Value.tag]
    rw [diff_iter_change_flat _ _ _ hab ha hb hm',
        diff_iter_change_flat _ _ _ hab ha hb hm']
    simp [shiftItem]

theorem alookup_isSome_iff {κ α : Type} [DecidableEq κ]
    (m : List (κ × α)) (k : κ) :
    (alookup m k).isSome = true ↔ k ∈ m.map Prod.fst := by
  induction m with
  | nil => simp [alookup]
  | cons kv rest ih =>
      rcases kv with ⟨k', v⟩
      rw [alookup]
      by_cases h : k' = k <;> simp [h, ih]
      exact fun he => absurd he.symm h

theorem nodupKeysB_iff (ks : List String) :
    nodupKeysB ks = true ↔ ks.Nodup := by
  induction ks with
  | nil => simp [nodupKeysB]
  | cons k rest ih => simp [nodupKeysB, ih, List.elem_iff]

theorem wfM_alookup (m : List (String × Value)) (k : String) (w : Value)
    (hm : wfM m = true) (h : alookup m k = some w) : w.wf = true := by
  induction m with
  | nil => simp [alookup] at h
  | cons kv rest ih =>
      rcases kv with ⟨k', v⟩
      rw [alookup] at h
      rw [wfM] at hm
      by_cases hk : k' = k
      · rw [if_pos hk] at h
        cases h
        exact (Bool.and_eq_true_iff.mp hm).1
      · rw [if_neg hk] at h
        exact ih (Bool.and_eq_true_iff.mp hm).2 h

theorem wf_map_parts (m : List (String × Value))
    (h : Value.wf (.map m) = true) :
    nodupKeysB (m.map Prod.fst) = true ∧ wfM m = true := by
  rw [Value.wf] at h
  exact Bool.and_eq_true_iff.mp h

theorem wf_valueAt (m : List (String × Value)) (k : String)
    (h : Value.wf (.map m) = true) : (valueAt m k).wf = true := by
  rw [valueAt]
  cases hl : alookup m k with
  | none => rfl
  | some w => exact wfM_alookup m k w (wf_map_parts m h).2 hl

theorem wf_keys_nodup (m : List (String × Value))
    (h : Value.wf (.map m) = true) : (m.map Prod.fst).Nodup :=
  (nodupKeysB_iff _).mp (wf_map_parts m h).1

theorem mem_unionKeys (ma mb : List (String × Value)) (k : String) :
    k ∈ unionKeys ma mb ↔
      ((alookup ma k).isSome = true ∨ (alookup mb k).isSome = true) := by
  rw [unionKeys, List.mem_append, List.mem_filter,
      ← alookup_isSome_iff, ← alookup_isSome_iff]
  constructor
  · rintro (h | ⟨h, _⟩)
    · exact Or.inl h
    · exact Or.inr h
  · rintro (h | h)
    · exact Or.inl h
    · by_cases ha : (alookup ma k).isSome = true
      · exact Or.inl ha
      · refine Or.inr ⟨h, ?_⟩
        show (alookup ma k).isNone = true
        rw [Option.isNone_iff_eq_none]
        exact Option.not_isSome_iff_eq_none.mp ha

theorem unionKeys_nodup (ma mb : List (String × Value))
    (hma : (ma.map Prod.fst).Nodup) (hmb : (mb.map Prod.fst).Nodup) :
    (unionKeys ma mb).Nodup := by
  rw [unionKeys]
  apply List.Nodup.append hma (List.Nodup.filter _ hmb)
  intro k hk hk'
  rw [List.mem_filter] at hk'
  rw [← alookup_isSome_iff] at hk
  have : (alookup ma k) = none := by
    have := hk'.2
    simp only [Option.isNone_iff_eq_none] at this
    exact this
  rw [this] at hk
  exact absurd hk (by simp)

/-- The per-key recursion of the mapping branch, written uniformly: for any
key of either dict, diff the two sides' values (null when absent) under the
key's path.  A diff of two dicts is, up to ordering, this recursion over the
union of their keys. -/
theorem diff_iter_map_split (ma mb : List (String × Value)) (p : List String)
    (hma : (ma.map Prod.fst).Nodup) (hmb : (mb.map Prod.fst).Nodup) :
    (diff_iter (.map ma) (.map mb) p).Perm
      ((unionKeys ma mb).flatMap
        (fun k => diff_iter (valueAt ma k) (valueAt mb k) (p ++ [k]))) := by
  by_cases he : Value.map ma = Value.map mb
  · have hmm : ma = mb := by injection he
    subst hmm
    rw [diff_iter_self]
    have hz : ((unionKeys ma ma).flatMap
        (fun k => diff_iter (valueAt ma k) (valueAt ma k) (p ++ [k]))) = [] := by
      rw [List.flatMap_congr (g := fun _ => ([] : List DiffItem))
            (fun k _ => diff_iter_self _ _)]
      simp
    rw [hz]
  · rw [diff_iter_map_map _ _ _ he]
    have hadds : ((mb.map Prod.fst).filter
          (fun k => (alookup ma k).isNone)).flatMap
          (fun k => diff_iter .null (valueAt mb k) (p ++ [k]))
        = ((mb.map Prod.fst).filter
          (fun k => (alookup ma k).isNone)).flatMap
          (fun k => diff_iter (valueAt ma k) (valueAt mb k) (p ++ [k])) := by
      apply List.flatMap_congr
      intro k hk
      rw [List.mem_filter] at hk
      have h0 : alookup ma k = none := by
        have := hk.2
        simp only [Option.isNone_iff_eq_none] at this
        exact this
      simp only [valueAt, h0, Option.getD_none]
    have hrems : ((ma.map Prod.fst).filter
          (fun k => (alookup mb k).isNone)).flatMap
          (fun k => diff_iter (valueAt ma k) .null (p ++ [k]))
        = ((ma.map Prod.fst).filter
          (fun k => (alookup mb k).isNone)).flatMap
          (fun k => diff_iter (valueAt ma k) (valueAt mb k) (p ++ [k])) := by
      apply List.flatMap_congr
      intro k hk
      rw [List.mem_filter] at hk
      have h0 : alookup mb k = none := by
        have := hk.2
        simp only [Option.isNone_iff_eq_none] at this
        exact this
      simp only [valueAt, h0, Option.getD_none]
    rw [hadds, hrems, unionKeys, List.flatMap_append]
    set F := fun k => diff_iter (valueAt ma k) (valueAt mb k) (p ++ [k]) with hF
    set addsK := (mb.map Prod.fst).filter (fun k => (alookup ma k).isNone)
      with haddsK
    set remsK := (ma.map Prod.fst).filter (fun k => (alookup mb k).isNone)
      with hremsK
    set comsK := (ma.map Prod.fst).filter (fun k => (alookup mb k).isSome)
      with hcomsK
    have hpart : (remsK ++ comsK).Perm (ma.map Prod.fst) := by
      rw [hremsK, hcomsK]
      have := List.filter_append_perm
        (fun k => (alookup mb k).isNone) (ma.map Prod.fst)
      refine List.Perm.trans ?_ this
      apply List.Perm.append (List.Perm.refl _)
      apply List.Perm.of_eq
      apply List.filter_congr
      intro k _
      cases alookup mb k <;> rfl
    have e1 : addsK.flatMap F ++ remsK.flatMap F ++ comsK.flatMap F
        = addsK.flatMap F ++ (remsK ++ comsK).flatMap F := by
      rw [List.append_assoc, List.flatMap_append]
    rw [e1]
    refine List.Perm.trans List.perm_append_comm ?_
    exact List.Perm.append (List.Perm.flatMap_right F hpart) (List.Perm.refl _)

theorem resolve_null (p : List String) : resolve .null p = some .null := by
  cases p <;> rfl

theorem resolve_map_cons (m : List (String × Value)) (k : String)
    (rest : List String) :
    resolve (.map m) (k :: rest) = resolve (valueAt m k) rest := by
  rw [resolve, valueAt]
  cases h : alookup m k with
  | none => simp [resolve_null]
  | some w => simp

theorem reduce_iter_nil_path (d : List DiffItem) : reduce_iter d [] = some d := by
  induction d with
  | nil => rfl
  | cons it rest ih =>
      rw [reduce_iter, ih, reduce_item]
      simp

theorem reduce_iter_append (xs ys : List DiffItem) (p : List String) :
    reduce_iter (xs ++ ys) p =
      match reduce_iter xs p, reduce_iter ys p with
      | some a, some b => some (a ++ b)
      | _, _ => none := by
  induction xs with
  | nil =>
      show reduce_iter ys p = _
      rw [reduce_iter]
      cases reduce_iter ys p <;> simp [reduce_iter]
  | cons it rest ih =>
      rw [List.cons_append, reduce_iter, ih, reduce_iter]
      cases reduce_item it p <;> cases reduce_iter rest p <;>
        cases reduce_iter ys p <;> simp

theorem reduce_iter_isSome_parts (d : List DiffItem) (p : List String) :
    (reduce_iter d p).isSome = true ↔
      ∀ it ∈ d, (reduce_item it p).isSome = true := by
  induction d with
  | nil => simp [reduce_iter]
  | cons it rest ih =>
      rw [reduce_iter]
      cases h1 : reduce_item it p <;> cases h2 : reduce_iter rest p <;>
        simp_all

theorem reduce_iter_eq_flatMap (d : List DiffItem) (p : List String)
    (h : ∀ it ∈ d, (reduce_item it p).isSome = true) :
    reduce_iter d p = some (d.flatMap (fun it => (reduce_item it p).getD [])) := by
  induction d with
  | nil => rfl
  | cons it rest ih =>
      rw [reduce_iter, ih (fun x hx => h x (List.mem_cons_of_mem _ hx))]
      cases h1 : reduce_item it p with
      | none =>
          exact absurd (h it (List.mem_cons_self _ _)) (by simp [h1])
      | some xs => simp [h1]

/-- Reducing a permuted diff succeeds on the same inputs and yields a
permuted result. -/
theorem reduce_iter_perm (d d' : List DiffItem) (p : List String)
    (hp : d.Perm d') (out : List DiffItem)
    (h : reduce_iter d p = some out) :
    ∃ out', reduce_iter d' p = some out' ∧ out.Perm out' := by
  have hsome : ∀ it ∈ d, (reduce_item it p).isSome = true := by
    rw [← reduce_iter_isSome_parts]
    simp [h]
  have hsome' : ∀ it ∈ d', (reduce_item it p).isSome = true := by
    intro it hit
    exact hsome it (hp.mem_iff.mpr hit)
  refine ⟨d'.flatMap (fun it => (reduce_item it p).getD []),
    reduce_iter_eq_flatMap d' p hsome', ?_⟩
  have hout : out = d.flatMap (fun it => (reduce_item it p).getD []) := by
    have := reduce_iter_eq_flatMap d p hsome
    rw [h] at this
    exact Option.some.inj this
  rw [hout]
  exact List.Perm.flatMap_right _ hp

theorem reduce_item_shift_eq (it : DiffItem) (k : String) (rest : List String) :
    reduce_item (shiftItem [k] it) (k :: rest) = reduce_item it rest := by
  rcases it with ⟨op, f, o, n⟩
  cases rest with
  | nil => simp [reduce_item, shiftItem]
  | cons r rs =>
      simp only [reduce_item, shiftItem, List.singleton_append, List.length_cons,
        List.take_succ_cons, List.drop_succ_cons, List.cons.injEq, true_and,
        reduceCtorEq, if_false]

theorem reduce_item_shift_ne (it : DiffItem) (j k : String)
    (rest : List String) (h : j ≠ k) :
    reduce_item (shiftItem [j] it) (k :: rest) = some [] := by
  rcases it with ⟨op, f, o, n⟩
  simp only [reduce_item, shiftItem, List.singleton_append, List.length_cons,
    List.take_succ_cons, List.drop_succ_cons, List.cons.injEq,
    reduceCtorEq, if_false]
  rw [if_neg (by intro hx; exact h hx.1), if_neg (by intro hx; exact h hx.1.symm)]

theorem reduce_iter_shift_eq (items : List DiffItem) (k : String)
    (rest : List String) :
    reduce_iter (items.map (shiftItem [k])) (k :: rest)
      = reduce_iter items rest := by
  induction items with
  | nil => rfl
  | cons it its ih =>
      rw [List.map_cons, reduce_iter, reduce_item_shift_eq, ih, reduce_iter]

theorem reduce_iter_shift_ne (items : List DiffItem) (j k : String)
    (rest : List String) (h : j ≠ k) :
    reduce_iter (items.map (shiftItem [j])) (k :: rest) = some [] := by
  induction items with
  | nil => rfl
  | cons it its ih =>
      rw [List.map_cons, reduce_iter, reduce_item_shift_ne _ _ _ _ h, ih]
      rfl

/-- Reducing a union-of-keys diff by a one-step-deeper path selects exactly
the key's component: every other key's items are dropped. -/
theorem reduce_iter_flatMap_shifted (keys : List String)
    (G : String → List DiffItem) (k : String) (rest : List String)
    (hnd : keys.Nodup) :
    reduce_iter (keys.flatMap fun j => (G j).map (shiftItem [j])) (k :: rest)
      = if k ∈ keys then reduce_iter (G k) rest else some [] := by
  induction keys with
  | nil => simp [reduce_iter]
  | cons j js ih =>
      have hndj : js.Nodup := hnd.of_cons
      rw [List.flatMap_cons, reduce_iter_append]
      by_cases hjk : j = k
      · subst hjk
        have hnotin : j ∉ js := (List.nodup_cons.mp hnd).1
        rw [reduce_iter_shift_eq, ih hndj, if_neg hnotin,
            if_pos (List.mem_cons_self _ _)]
        cases reduce_iter (G j) rest <;> simp
      · rw [reduce_iter_shift_ne _ _ _ _ hjk, ih hndj]
        by_cases hin : k ∈ js
        · rw [if_pos hin, if_pos (List.mem_cons_of_mem _ hin)]
          cases reduce_iter (G k) rest <;> simp
        · have hnotc : k ∉ j :: js := by
            rw [List.mem_cons]
            rintro (he | he)
            · exact hjk he.symm
            · exact hin he
          rw [if_neg hin, if_neg hnotc]
          rfl

theorem resolve_cons_flat (a : Value) (k : String) (rest : List String)
    (h1 : a ≠ .null) (h2 : ∀ m, a ≠ .map m) : resolve a (k :: rest) = none := by
  cases a with
  | null => exact absurd rfl h1
  | map m => exact absurd rfl (h2 m)
  | bool b => rfl
  | int n => rfl
  | str s => rfl
  | list xs => rfl

theorem reduce_iter_single_root (op : DiffOperation) (o n : Value)
    (k : String) (rest : List String) :
    reduce_iter [⟨op, [], o, n⟩] (k :: rest) =
      match resolve o (k :: rest), resolve n (k :: rest) with
      | some x, some y => some (diff_iter x y [])
      | _, _ => none := by
  rw [reduce_iter, reduce_item]
  simp only [reduceCtorEq, if_false, List.take_nil, List.length_nil,
    List.take_zero, List.drop_zero, if_pos rfl]
  cases resolve o (k :: rest) <;> cases resolve n (k :: rest) <;>
    simp [reduce_iter]

theorem resolve_some_shape (a : Value) (k : String) (rest : List String)
    (ra : Value) (h : resolve a (k :: rest) = some ra) (hn : a ≠ .null) :
    ∃ m, a = .map m := by
  cases a with
  | map m => exact ⟨m, rfl⟩
  | null => exact absurd rfl hn
  | bool x => exact Option.noConfusion h
  | int x => exact Option.noConfusion h
  | str x => exact Option.noConfusion h
  | list x => exact Option.noConfusion h

theorem reduce_coherence_aux : ∀ (p : List String) (a b ra rb : Value),
    a.wf = true → b.wf = true →
    resolve a p = some ra → resolve b p = some rb →
    ∃ out, reduce_iter (diff_iter a b []) p = some out ∧
      out.Perm (diff_iter ra rb []) := by
  intro p
  induction p with
  | nil =>
      intro a b ra rb _ _ hra hrb
      rw [resolve] at hra hrb
      cases Option.some.inj hra
      cases Option.some.inj hrb
      exact ⟨_, reduce_iter_nil_path _, List.Perm.refl _⟩
  | cons k rest ih =>
      intro a b ra rb ha hb hra hrb
      by_cases heq : a = b
      · subst heq
        have hab : ra = rb := by
          rw [hra] at hrb
          exact Option.some.inj hrb
        subst hab
        rw [diff_iter_self]
        exact ⟨[], rfl, by rw [diff_iter_self]⟩
      · by_cases hanull : a = Value.null
        · subst hanull
          have hra2 : ra = Value.null := by
            rw [resolve_null] at hra
            exact (Option.some.inj hra).symm
          subst hra2
          rw [diff_iter_add _ _ _ heq rfl, reduce_iter_single_root,
              resolve_null, hrb]
          exact ⟨_, rfl, List.Perm.refl _⟩
        · by_cases hbnull : b = Value.null
          · subst hbnull
            have hrb2 : rb = Value.null := by
              rw [resolve_null] at hrb
              exact (Option.some.inj hrb).symm
            subst hrb2
            rw [diff_iter_remove _ _ _ heq hanull rfl, reduce_iter_single_root,
                resolve_null, hra]
            exact ⟨_, rfl, List.Perm.refl _⟩
          · obtain ⟨ma, rfl⟩ := resolve_some_shape a k rest ra hra hanull
            obtain ⟨mb, rfl⟩ := resolve_some_shape b k rest rb hrb hbnull
            have hka := wf_keys_nodup ma ha
            have hkb := wf_keys_nodup mb hb
            have hsplit := diff_iter_map_split ma mb [] hka hkb
            have hform : (unionKeys ma mb).flatMap
                  (fun j => diff_iter (valueAt ma j) (valueAt mb j) ([] ++ [j]))
                = (unionKeys ma mb).flatMap
                  (fun j => (diff_iter (valueAt ma j) (valueAt mb j) []).map
                    (shiftItem [j])) := by
              apply List.flatMap_congr
              intro j _
              rw [List.nil_append, diff_iter_shift]
            rw [hform] at hsplit
            have hund := unionKeys_nodup ma mb hka hkb
            have hred := reduce_iter_flatMap_shifted (unionKeys ma mb)
              (fun j => diff_iter (valueAt ma j) (valueAt mb j) []) k rest hund
            rw [resolve_map_cons] at hra hrb
            by_cases hmem : k ∈ unionKeys ma mb
            · rw [if_pos hmem] at hred
              have hwa := wf_valueAt ma k ha
              have hwb := wf_valueAt mb k hb
              obtain ⟨out, hout, hperm⟩ :=
                ih (valueAt ma k) (valueAt mb k) ra rb hwa hwb hra hrb
              rw [hout] at hred
              obtain ⟨out2, hout2, hperm2⟩ :=
                reduce_iter_perm _ _ (k :: rest) hsplit.symm out hred
              exact ⟨out2, hout2, (hperm2.symm).trans hperm⟩
            · rw [if_neg hmem] at hred
              rw [mem_unionKeys] at hmem
              have hva : valueAt ma k = Value.null := by
                rw [valueAt]
                cases hx : alookup ma k with
                | none => rfl
                | some w => exact absurd (by simp [hx]) (fun h => hmem (Or.inl h))
              have hvb : valueAt mb k = Value.null := by
                rw [valueAt]
                cases hx : alookup mb k with
                | none => rfl
                | some w => exact absurd (by simp [hx]) (fun h => hmem (Or.inr h))
              rw [hva, resolve_null] at hra
              rw [hvb, resolve_null] at hrb
              cases (Option.some.inj hra)
              cases (Option.some.inj hrb)
              obtain ⟨out2, hout2, hperm2⟩ :=
                reduce_iter_perm _ _ (k :: rest) hsplit.symm [] hred
              refine ⟨out2, hout2, ?_⟩
              rw [diff_iter_self]
              exact hperm2.symm

/- ===================== Claim theorems ===================== -/

/-- C1: for all well-formed values `a`, `b` and every field path `p` on
which both sides resolve (absent parents resolving to the empty/None
value), reducing `diff(a, b)` to `p` succeeds and yields, up to ordering,
the same diff items as diffing the values resolved at `p` directly — in
particular, a single add/remove of a parent container is expanded into the
synthesized per-leaf operations for the sub-field. -/
theorem c1_reduce_diff_coherence (a b : Value) (p : List String)
    (ra rb : Value) (ha : a.wf = true) (hb : b.wf = true)
    (hra : resolve a p = some ra) (hrb : resolve b p = some rb) :
    ∃ out, reduce (diff a b) p = some out ∧ out.Perm (diff ra rb) :=
  reduce_coherence_aux p a b ra rb ha hb hra hrb

/-- Witness for C1 at the "parent add, deep path" pinning case of the spec:
`a = {}`, `b = {spec: {struct: {field: "value"}}}`, `p = spec.struct.field`. -/
theorem c1_reduce_diff_coherence_witness :
    (Value.map []).wf = true ∧
    (Value.map [("spec", Value.map [("struct",
        Value.map [("field", Value.str "value")])])]).wf = true ∧
    resolve (Value.map []) ["spec", "struct", "field"] = some Value.null ∧
    resolve (Value.map [("spec", Value.map [("struct",
        Value.map [("field", Value.str "value")])])])
      ["spec", "struct", "field"] = some (Value.str "value") ∧
    (∃ out, reduce (diff (Value.map []) (Value.map [("spec", Value.map
        [("struct", Value.map [("field", Value.str "value")])])]))
        ["spec", "struct", "field"] = some out ∧
      out.Perm (diff Value.null (Value.str "value"))) :=
  ⟨rfl, rfl, rfl, rfl,
    c1_reduce_diff_coherence _ _ _ _ _ rfl rfl rfl rfl⟩

/-- C2: `diff_iter` follows exactly the specified case analysis: equal
values give the empty diff; a null old value gives a single add carrying
`b`; a null new value a single remove; differing types a single change;
two dicts recurse per key — up to ordering, one recursive diff per key of
either dict, with the absent side resolved to null, which yields the add
items for keys only in `b`, the remove items for keys only in `a`, and the
recursion on common keys; any other pair (scalars, lists) gives a single
change at the current path. -/
theorem c2_diff_case_analysis (a b : Value) (path : List String)
    (ha : a.wf = true) (hb : b.wf = true) :
    (a = b → diff_iter a b path = []) ∧
    (a ≠ b → a = .null → diff_iter a b path = [⟨.add, path, a, b⟩]) ∧
    (a ≠ b → a ≠ .null → b = .null →
      diff_iter a b path = [⟨.remove, path, a, b⟩]) ∧
    (a ≠ b → a ≠ .null → b ≠ .null → a.tag ≠ b.tag →
      diff_iter a b path = [⟨.change, path, a, b⟩]) ∧
    (∀ ma mb, a = .map ma → b = .map mb →
      (diff_iter a b path).Perm
        ((unionKeys ma mb).flatMap
          (fun k => diff_iter (valueAt ma k) (valueAt mb k) (path ++ [k])))) ∧
    (a ≠ b → a ≠ .null → b ≠ .null → a.tag = b.tag → (∀ m, a ≠ .map m) →
      diff_iter a b path = [⟨.change, path, a, b⟩]) := by
  refine ⟨?_, ?_, ?_, ?_, ?_, ?_⟩
  · intro h; subst h; exact diff_iter_self a path
  · intro h hn; exact diff_iter_add a b path h hn
  · intro h hn hb0; exact diff_iter_remove a b path h hn hb0
  · intro h h1 h2 h3; exact diff_iter_change_tag a b path h h1 h2 h3
  · intro ma mb h1 h2
    subst h1; subst h2
    exact diff_iter_map_split ma mb path
      (wf_keys_nodup ma ha) (wf_keys_nodup mb hb)
  · intro h h1 h2 _ h4; exact diff_iter_change_flat a b path h h1 h2 h4

/-- Witness for C2 at two concrete dicts with an added, a removed, a
changed, and an unchanged key. -/
theorem c2_diff_case_analysis_witness :
    (Value.map [("x", Value.int 1), ("z", Value.int 3)]).wf = true ∧
    (Value.map [("x", Value.int 2), ("y", Value.int 7)]).wf = true ∧
    ((Value.map [("x", Value.int 1), ("z", Value.int 3)]
        = Value.map [("x", Value.int 2), ("y", Value.int 7)] →
      diff_iter (Value.map [("x", Value.int 1), ("z", Value.int 3)])
        (Value.map [("x", Value.int 2), ("y", Value.int 7)]) [] = []) ∧
     (Value.map [("x", Value.int 1), ("z", Value.int 3)]
        ≠ Value.map [("x", Value.int 2), ("y", Value.int 7)] →
      Value.map [("x", Value.int 1), ("z", Value.int 3)] = .null →
      diff_iter (Value.map [("x", Value.int 1), ("z", Value.int 3)])
        (Value.map [("x", Value.int 2), ("y", Value.int 7)]) []
        = [⟨.add, [], Value.map [("x", Value.int 1), ("z", Value.int 3)],
            Value.map [("x", Value.int 2), ("y", Value.int 7)]⟩]) ∧
     (Value.map [("x", Value.int 1), ("z", Value.int 3)]
        ≠ Value.map [("x", Value.int 2), ("y", Value.int 7)] →
      Value.map [("x", Value.int 1), ("z", Value.int 3)] ≠ .null →
      Value.map [("x", Value.int 2), ("y", Value.int 7)] = .null →
      diff_iter (Value.map [("x", Value.int 1), ("z", Value.int 3)])
        (Value.map [("x", Value.int 2), ("y", Value.int 7)]) []
        = [⟨.remove, [], Value.map [("x", Value.int 1), ("z", Value.int 3)],
            Value.map [("x", Value.int 2), ("y", Value.int 7)]⟩]) ∧
     (Value.map [("x", Value.int 1), ("z", Value.int 3)]
        ≠ Value.map [("x", Value.int 2), ("y", Value.int 7)] →
      Value.map [("x", Value.int 1), ("z", Value.int 3)] ≠ .null →
      Value.map [("x", Value.int 2), ("y", Value.int 7)] ≠ .null →
      (Value.map [("x", Value.int 1), ("z", Value.int 3)]).tag
        ≠ (Value.map [("x", Value.int 2), ("y", Value.int 7)]).tag →
      diff_iter (Value.map [("x", Value.int 1), ("z", Value.int 3)])
        (Value.map [("x", Value.int 2), ("y", Value.int 7)]) []
        = [⟨.change, [], Value.map [("x", Value.int 1), ("z", Value.int 3)],
            Value.map [("x", Value.int 2), ("y", Value.int 7)]⟩]) ∧
     (∀ ma mb,
      Value.map [("x", Value.int 1), ("z", Value.int 3)] = .map ma →
      Value.map [("x", Value.int 2), ("y", Value.int 7)] = .map mb →
      (diff_iter (Value.map [("x", Value.int 1), ("z", Value.int 3)])
        (Value.map [("x", Value.int 2), ("y", Value.int 7)]) []).Perm
        ((unionKeys ma mb).flatMap
          (fun k => diff_iter (valueAt ma k) (valueAt mb k) ([] ++ [k])))) ∧
     (Value.map [("x", Value.int 1), ("z", Value.int 3)]
        ≠ Value.map [("x", Value.int 2), ("y", Value.int 7)] →
      Value.map [("x", Value.int 1), ("z", Value.int 3)] ≠ .null →
      Value.map [("x", Value.int 2), ("y", Value.int 7)] ≠ .null →
      (Value.map [("x", Value.int 1), ("z", Value.int 3)]).tag
        = (Value.map [("x", Value.int 2), ("y", Value.int 7)]).tag →
      (∀ m, Value.map [("x", Value.int 1), ("z", Value.int 3)] ≠ .map m) →
      diff_iter (Value.map [("x", Value.int 1), ("z", Value.int 3)])
        (Value.map [("x", Value.int 2), ("y", Value.int 7)]) []
        = [⟨.change, [], Value.map [("x", Value.int 1), ("z", Value.int 3)],
            Value.map [("x", Value.int 2), ("y", Value.int 7)]⟩])) :=
  ⟨rfl, rfl, c2_diff_case_analysis _ _ [] rfl rfl⟩

/-- C7 counterexample: the claim's "otherwise the prefix is
/apis/{group}/{version}" fails for an empty group with a non-v1 version:
empty path components are dropped, so the URL is /apis/v2/pods, not
/apis//v2/pods.  Also, a subresource without a name raises ValueError
instead of building a URL. -/
theorem c7_get_url_counterexample :
    (Resource.mk "" "v2" "pods").get_url none none none
        = some "/apis/v2/pods" ∧
    some "/apis/v2/pods"
        ≠ some ("/apis/" ++ "" ++ "/" ++ "v2" ++ "/" ++ "pods") ∧
    (Resource.mk "g" "v1" "pods").get_url none none (some "status") = none := by
  refine ⟨rfl, ?_, rfl⟩
  decide

/-- C7 amended: `get_url` equals the claimed URL shape, amended by what the
code does: the prefix is `/api/v1` exactly when the group is empty and the
version is `v1`, and otherwise `/apis/` followed by the group (dropped when
empty, as all empty components are) and the version; `namespaces/{ns}` is
inserted before the plural when a namespace is given, and name and
subresource are appended in that order, a subresource requiring a name
(ValueError otherwise).  Hypotheses: the meaningful components are
non-empty strings, as Kubernetes names are. -/
theorem c7_get_url_amended (r : Resource) (ns nm sr : Option String)
    (hv : r.version ≠ "") (hp : r.plural ≠ "")
    (hns : ns ≠ some "") (hnm : nm ≠ some "") (hsr : sr ≠ some "") :
    r.get_url ns nm sr = r.get_url_spec ns nm sr := by
  rcases r with ⟨g, v, pl⟩
  simp only at hv hp
  by_cases hapi : g = "" ∧ v = "v1"
  · obtain ⟨hg, hv1⟩ := hapi
    subst hg
    subst hv1
    rcases sr with _ | s <;> rcases nm with _ | n <;> rcases ns with _ | nsv <;>
      simp_all [Resource.get_url, Resource.get_url_spec, Resource.build_url,
        joinSlash, List.filterMap, List.filter, String.append_assoc] <;>
      (apply String.ext; simp [String.data_append])
  · by_cases hg : g = ""
    · subst hg
      rcases sr with _ | s <;> rcases nm with _ | n <;> rcases ns with _ | nsv <;>
        simp_all [Resource.get_url, Resource.get_url_spec, Resource.build_url,
          joinSlash, List.filterMap, List.filter, String.append_assoc] <;>
        (apply String.ext; simp [String.data_append])
    · rcases sr with _ | s <;> rcases nm with _ | n <;> rcases ns with _ | nsv <;>
        simp_all [Resource.get_url, Resource.get_url_spec, Resource.build_url,
          joinSlash, List.filterMap, List.filter, String.append_assoc] <;>
        (apply String.ext; simp [String.data_append])

/-- Witness for C7 at a fully loaded call: group "apps", version "v1",
namespace, name and subresource all given. -/
theorem c7_get_url_amended_witness :
    ("v1" : String) ≠ "" ∧ ("deployments" : String) ≠ "" ∧
    (some "ns1" : Option String) ≠ some "" ∧
    (some "n1" : Option String) ≠ some "" ∧
    (some "status" : Option String) ≠ some "" ∧
    (Resource.mk "apps" "v1" "deployments").get_url
        (some "ns1") (some "n1") (some "status")
      = (Resource.mk "apps" "v1" "deployments").get_url_spec
        (some "ns1") (some "n1") (some "status") :=
  ⟨by decide, by decide, by decide, by decide, by decide,
    c7_get_url_amended _ _ _ _ (by decide) (by decide) (by decide) (by decide)
      (by decide)⟩

/- ============ Lemmas about dict updates ============ -/

theorem alookup_aset_self {κ α : Type} [DecidableEq κ]
    (m : List (κ × α)) (k : κ) (v : α) : alookup (aset m k v) k = some v := by
  induction m with
  | nil => simp [aset, alookup]
  | cons kv rest ih =>
      rcases kv with ⟨k', v'⟩
      rw [aset]
      by_cases h : k' = k
      · rw [if_pos h, alookup, if_pos rfl]
      · rw [if_neg h, alookup, if_neg h]
        exact ih

theorem alookup_aset_ne {κ α : Type} [DecidableEq κ]
    (m : List (κ × α)) (k k' : κ) (v : α) (h : k' ≠ k) :
    alookup (aset m k v) k' = alookup m k' := by
  induction m with
  | nil =>
      rw [aset]
      simp only [alookup]
      rw [if_neg (fun he => h he.symm)]
  | cons kv rest ih =>
      rcases kv with ⟨k'', v''⟩
      rw [aset]
      by_cases h2 : k'' = k
      · rw [if_pos h2]
        simp only [alookup]
        rw [if_neg (fun he => h he.symm),
            if_neg (fun he => h ((h2.symm.trans he).symm))]
      · rw [if_neg h2]
        simp only [alookup]
        by_cases h3 : k'' = k'
        · rw [if_pos h3, if_pos h3]
        · rw [if_neg h3, if_neg h3, ih]

theorem statusKopfClean_shape (p : Value) (hc : statusKopfClean p = true) :
    ∃ mk, ((p.get "status" emptyMap).get "kopf" emptyMap) = Value.map mk := by
  rcases p with _ | _ | _ | _ | _ | m
  case map =>
    rw [statusKopfClean] at hc
    rcases hs : alookup m "status" with _ | sv
    · exact ⟨[], by simp [Value.get, hs, emptyMap, alookup]⟩
    · rcases sv with _ | _ | _ | _ | _ | ms
      all_goals simp only [hs] at hc
      case map =>
        rcases hk : alookup ms "kopf" with _ | kv
        · exact ⟨[], by simp [Value.get, hs, hk, emptyMap, alookup]⟩
        · rcases kv with _ | _ | _ | _ | _ | mk
          all_goals simp only [hk] at hc
          all_goals simp_all
          exact ⟨mk, by simp [Value.get, hs, hk]⟩
      all_goals simp_all
  all_goals rw [statusKopfClean] at hc
  all_goals simp_all

theorem updPath_nil (v : Value) (f : Value → Value) : updPath v [] f = f v := by
  cases v <;> rfl

/-- Reading `status.kopf` through a `status.kopf` setdefault-write. -/
theorem status_kopf_updPath (p : Value) (f : Value → Value)
    (hc : statusKopfClean p = true) :
    (((updPath p ["status", "kopf"] f).get "status" emptyMap).get "kopf"
        emptyMap)
      = f ((p.get "status" emptyMap).get "kopf" emptyMap) := by
  rcases p with _ | _ | _ | _ | _ | m
  case map =>
    rw [statusKopfClean] at hc
    rw [updPath]
    rcases hs : alookup m "status" with _ | sv
    · have e1 : (Value.map m).get "status" emptyMap = emptyMap := by
        simp [Value.get, hs]
      rw [e1, Option.getD_none]
      have e2 : updPath emptyMap ["kopf"] f
          = Value.map [("kopf", f emptyMap)] := by
        rw [emptyMap, updPath]
        rfl
      rw [e2]
      simp [Value.get, alookup_aset_self, alookup, emptyMap]
    · simp only [hs] at hc
      rcases sv with _ | _ | _ | _ | _ | ms
      case map =>
        have e1 : (Value.map m).get "status" emptyMap = Value.map ms := by
          simp [Value.get, hs]
        rw [e1, Option.getD_some]
        have e2 : updPath (Value.map ms) ["kopf"] f
            = Value.map (aset ms "kopf"
                (f ((alookup ms "kopf").getD emptyMap))) := by
          rw [updPath, updPath_nil]
        rw [e2]
        simp [Value.get, alookup_aset_self]
      all_goals simp_all
  all_goals rw [statusKopfClean] at hc
  all_goals simp_all

/-- Reading `status.kopf` through two successive `status.kopf`
setdefault-writes, as `purge_progress` performs. -/
theorem status_kopf_updPath2 (p : Value) (f1 f2 : Value → Value)
    (hc : statusKopfClean p = true) :
    (((updPath (updPath p ["status", "kopf"] f1) ["status", "kopf"] f2).get
        "status" emptyMap).get "kopf" emptyMap)
      = f2 (f1 ((p.get "status" emptyMap).get "kopf" emptyMap)) := by
  rcases p with _ | _ | _ | _ | _ | m
  case map =>
    rw [statusKopfClean] at hc
    rw [updPath]
    rcases hs : alookup m "status" with _ | sv
    · rw [Option.getD_none]
      rw [show updPath emptyMap ["kopf"] f1
          = Value.map [("kopf", f1 emptyMap)] from by rw [emptyMap, updPath]; rfl]
      rw [updPath, alookup_aset_self, Option.getD_some]
      rw [show updPath (Value.map [("kopf", f1 emptyMap)]) ["kopf"] f2
          = Value.map (aset [("kopf", f1 emptyMap)] "kopf"
              (f2 ((alookup [("kopf", f1 emptyMap)] "kopf").getD emptyMap)))
        from by rw [updPath, updPath_nil]]
      rw [show alookup [("kopf", f1 emptyMap)] "kopf" = some (f1 emptyMap)
          from by simp [alookup]]
      rw [Option.getD_some]
      simp [Value.get, alookup_aset_self, aset, alookup, hs, emptyMap]
    · simp only [hs] at hc
      rcases sv with _ | _ | _ | _ | _ | ms
      case map =>
        rw [Option.getD_some]
        rw [show updPath (Value.map ms) ["kopf"] f1
            = Value.map (aset ms "kopf"
                (f1 ((alookup ms "kopf").getD emptyMap))) from by
          rw [updPath, updPath_nil]]
        rw [updPath, alookup_aset_self, Option.getD_some]
        rw [show updPath (Value.map (aset ms "kopf"
              (f1 ((alookup ms "kopf").getD emptyMap)))) ["kopf"] f2
            = Value.map (aset (aset ms "kopf"
                (f1 ((alookup ms "kopf").getD emptyMap))) "kopf"
              (f2 ((alookup (aset ms "kopf"
                (f1 ((alookup ms "kopf").getD emptyMap))) "kopf").getD
                  emptyMap))) from by rw [updPath, updPath_nil]]
        rw [alookup_aset_self, Option.getD_some]
        simp [Value.get, alookup_aset_self, hs]
      all_goals simp_all
  all_goals rw [statusKopfClean] at hc
  all_goals simp_all

/-- C10: `purge_progress` always writes both `status.kopf.progress` (to
null) and `status.kopf.digest` (to the given digest — null when the Python
default `digest=None` is used), so calling it without a digest clears any
previously stored digest rather than leaving it unchanged. -/
theorem c10_purge_progress (body patch digest : Value)
    (hc : statusKopfClean patch = true) :
    ((((purge_progress body patch digest).get "status" emptyMap).get "kopf"
        emptyMap).lookup "progress" = some Value.null) ∧
    ((((purge_progress body patch digest).get "status" emptyMap).get "kopf"
        emptyMap).lookup "digest" = some digest) := by
  obtain ⟨mk, hmk⟩ := statusKopfClean_shape patch hc
  rw [purge_progress]
  rw [status_kopf_updPath2 patch _ _ hc, hmk]
  constructor
  · simp only [Value.lookup]
    rw [alookup_aset_ne _ _ _ _
          (by decide : ("progress" : String) ≠ "digest"),
        alookup_aset_self]
  · simp only [Value.lookup]
    rw [alookup_aset_self]

/-- Witness for C10 on an empty patch and null digest (the Python default):
a previously stored digest would be overwritten by null. -/
theorem c10_purge_progress_witness :
    statusKopfClean (Value.map []) = true ∧
    ((((purge_progress (Value.map []) (Value.map []) Value.null).get "status"
        emptyMap).get "kopf" emptyMap).lookup "progress" = some Value.null) ∧
    ((((purge_progress (Value.map []) (Value.map []) Value.null).get "status"
        emptyMap).get "kopf" emptyMap).lookup "digest" = some Value.null) :=
  ⟨rfl, c10_purge_progress (Value.map []) (Value.map []) Value.null rfl⟩

/-- C8: `read_crd` and `read_obj` return the caller-supplied default exactly
when the HTTP error status is 403 or 404 and a default was supplied; any
other error status, or a missing default, propagates the error; a
successful response returns its body. -/
theorem c8_read_default_iff {α : Type} (response : HttpOutcome)
    (default : Option α) (is_ns : Bool) (ns : Option String)
    (respf : Option String → HttpOutcome) :
    ((∃ d, read_crd response default = .defaulted d) ↔
      ((response = .failure 403 ∨ response = .failure 404) ∧
        default.isSome = true)) ∧
    (∀ status, response = .failure status →
      ¬((status = 403 ∨ status = 404) ∧ default.isSome = true) →
      read_crd response default = .raised status) ∧
    (∀ body, response = .success body →
      read_crd response default = .returned body) ∧
    ((∃ d, read_obj is_ns ns respf default = .defaulted d) ↔
      ((respf (if is_ns then ns else none) = .failure 403 ∨
        respf (if is_ns then ns else none) = .failure 404) ∧
        default.isSome = true)) ∧
    (∀ status, respf (if is_ns then ns else none) = .failure status →
      ¬((status = 403 ∨ status = 404) ∧ default.isSome = true) →
      read_obj is_ns ns respf default = .raised status) ∧
    (∀ body, respf (if is_ns then ns else none) = .success body →
      read_obj is_ns ns respf default = .returned body) := by
  refine ⟨?_, ?_, ?_, ?_, ?_, ?_⟩
  · cases response with
    | success body => simp [read_crd]
    | failure status =>
        cases default with
        | none => simp [read_crd]
        | some d =>
            simp only [read_crd]
            by_cases h : status = 403 ∨ status = 404
            · simp [h]
            · simp [h]
  · intro status hs hno
    subst hs
    cases default with
    | none => simp [read_crd]
    | some d =>
        rw [read_crd, if_neg (fun hc => hno ⟨hc, rfl⟩)]
  · intro body hb
    subst hb
    rfl
  · rw [read_obj]
    cases hr : respf (if is_ns then ns else none) with
    | success body => simp
    | failure status =>
        cases default with
        | none => simp
        | some d =>
            by_cases h : status = 403 ∨ status = 404
            · simp [h]
            · simp [h]
  · intro status hs hno
    rw [read_obj, hs]
    cases default with
    | none => rfl
    | some d =>
        show (if status = 403 ∨ status = 404 then FetchResult.defaulted d
              else FetchResult.raised status) = _
        rw [if_neg (fun hc => hno ⟨hc, rfl⟩)]
  · intro body hb
    rw [read_obj, hb]

/-- Witness for C8 instantiating the theorem at a 404 error with a default
supplied. -/
theorem c8_read_default_iff_witness :
    ((∃ d, read_crd (.failure 404) (some 0) = FetchResult.defaulted d) ↔
      ((HttpOutcome.failure 404 = .failure 403 ∨
        HttpOutcome.failure 404 = .failure 404) ∧
        (some 0 : Option Nat).isSome = true)) ∧
    (∀ status, HttpOutcome.failure 404 = .failure status →
      ¬((status = 403 ∨ status = 404) ∧ (some 0 : Option Nat).isSome = true) →
      read_crd (.failure 404) (some 0) = .raised status) ∧
    (∀ body, HttpOutcome.failure 404 = .success body →
      read_crd (.failure 404) (some 0) = .returned body) ∧
    ((∃ d, read_obj true (some "ns") (fun _ => .failure 500) (some 0)
        = FetchResult.defaulted d) ↔
      (((fun _ => HttpOutcome.failure 500) (if true then some "ns" else none)
          = .failure 403 ∨
        (fun _ => HttpOutcome.failure 500) (if true then some "ns" else none)
          = .failure 404) ∧
        (some 0 : Option Nat).isSome = true)) ∧
    (∀ status, (fun _ => HttpOutcome.failure 500)
        (if true then some "ns" else none) = .failure status →
      ¬((status = 403 ∨ status = 404) ∧ (some 0 : Option Nat).isSome = true) →
      read_obj true (some "ns") (fun _ => .failure 500) (some 0)
        = .raised status) ∧
    (∀ body, (fun _ => HttpOutcome.failure 500)
        (if true then some "ns" else none) = .success body →
      read_obj true (some "ns") (fun _ => .failure 500) (some 0)
        = .returned body) :=
  c8_read_default_iff (.failure 404) (some 0) true (some "ns")
    (fun _ => .failure 500)

theorem sleep_or_wait_eq (delays : List (Option ℚ)) (wakeupAt : Option ℚ) :
    sleep_or_wait delays wakeupAt =
      if minimal_delay_of delays ≤ 0 then none
      else
        match wakeupAt with
        | some t => if t < minimal_delay_of delays
                    then some (max 0 (minimal_delay_of delays - t))
                    else none
        | none => none := rfl

/-- C5 counterexample: the claim says the sleep goes up to the minimum
POSITIVE delay (here 10), so a wakeup signalled at 3 should return the
remaining 7; the code takes the minimum of all delays (-5), finds it
non-positive, and returns the null sentinel immediately without sleeping. -/
theorem c5_sleep_or_wait_counterexample :
    sleep_or_wait [some (-5 : ℚ), some 10] (some 3) = none ∧
    (none : Option ℚ) ≠ some (10 - 3 : ℚ) := by
  constructor
  · rw [sleep_or_wait_eq]
    norm_num [minimal_delay_of, List.filterMap]
  · simp

/-- C5 amended: `sleep_or_wait` sleeps up to the minimum of the given
non-null delays provided that minimum is positive — with a non-positive
minimum (or no delays at all) it returns the null sentinel immediately; if
the wakeup event is signalled before the sleep elapses it returns the
remaining non-negative time, and an uninterrupted sleep (or a signal not
earlier than the timeout) returns the null sentinel; every returned time is
non-negative. -/
theorem c5_sleep_or_wait_amended (delays : List (Option ℚ))
    (wakeupAt : Option ℚ) :
    (minimal_delay_of delays ≤ 0 → sleep_or_wait delays wakeupAt = none) ∧
    (0 < minimal_delay_of delays → wakeupAt = none →
      sleep_or_wait delays wakeupAt = none) ∧
    (∀ t, 0 < minimal_delay_of delays → wakeupAt = some t →
      minimal_delay_of delays ≤ t → sleep_or_wait delays wakeupAt = none) ∧
    (∀ t, 0 < minimal_delay_of delays → wakeupAt = some t →
      t < minimal_delay_of delays →
      sleep_or_wait delays wakeupAt
        = some (max 0 (minimal_delay_of delays - t))) ∧
    (∀ r, sleep_or_wait delays wakeupAt = some r → 0 ≤ r) := by
  rw [sleep_or_wait_eq]
  refine ⟨?_, ?_, ?_, ?_, ?_⟩
  · intro h
    rw [if_pos h]
  · intro h hw
    subst hw
    rw [if_neg (by exact fun hc => absurd h (by simpa using hc))]
  · intro t h hw ht
    subst hw
    rw [if_neg (by exact fun hc => absurd h (by simpa using hc))]
    simp only [if_neg (by exact fun hc => absurd ht (by simpa using hc))]
  · intro t h hw ht
    subst hw
    rw [if_neg (by exact fun hc => absurd h (by simpa using hc))]
    simp only [if_pos ht]
  · intro r hr
    by_cases h : minimal_delay_of delays ≤ 0
    · rw [if_pos h] at hr
      exact absurd hr (by simp)
    · rw [if_neg h] at hr
      cases wakeupAt with
      | none => exact absurd hr (by simp)
      | some t =>
          dsimp only at hr
          by_cases ht : t < minimal_delay_of delays
          · rw [if_pos ht] at hr
            cases Option.some.inj hr
            exact le_max_left 0 _
          · rw [if_neg ht] at hr
            exact absurd hr (by simp)

/-- Witness for C5 at delays `[2, 5]` with a wakeup signalled at 1:
minimum 2 is positive, the signal precedes it, and 1 second remains. -/
theorem c5_sleep_or_wait_amended_witness :
    (0 : ℚ) < minimal_delay_of [some 2, some 5] ∧
    (1 : ℚ) < minimal_delay_of [some 2, some 5] ∧
    sleep_or_wait [some (2 : ℚ), some 5] (some 1)
      = some (max 0 (minimal_delay_of [some 2, some 5] - 1)) := by
  refine ⟨by norm_num [minimal_delay_of, List.filterMap],
    by norm_num [minimal_delay_of, List.filterMap], ?_⟩
  exact (c5_sleep_or_wait_amended [some 2, some 5] (some 1)).2.2.2.1 1
    (by norm_num [minimal_delay_of, List.filterMap]) rfl
    (by norm_num [minimal_delay_of, List.filterMap])

/-- C3 counterexample: the claim says every progress read prefers the patch
when both documents carry the field.  `get_retry_count` takes only the body
(progress.py line 100): with `retries` pending as 5 in the patch and stored
as 2 in the body, the read returns 2, not the patch's 5 — pending retry
counts are invisible.  The same holds for is_started, is_finished,
is_sleeping, is_awakened and get_awake_time, none of which takes the patch. -/
theorem c3_reads_counterexample :
    (progress_record (Value.map [("status", Value.map [("kopf", Value.map
        [("progress", Value.map [("h", Value.map
        [("retries", Value.int 5)])])])])]) "h").lookup "retries"
      = some (Value.int 5) ∧
    (progress_record (Value.map [("status", Value.map [("kopf", Value.map
        [("progress", Value.map [("h", Value.map
        [("retries", Value.int 2)])])])])]) "h").lookup "retries"
      = some (Value.int 2) ∧
    get_retry_count (Value.map [("status", Value.map [("kopf", Value.map
        [("progress", Value.map [("h", Value.map
        [("retries", Value.int 2)])])])])]) "h"
      = Value.int 2 ∧
    Value.int 2 ≠ Value.int 5 := by
  refine ⟨rfl, rfl, rfl, by decide⟩

/-- C3 amended: of the progress-store reads, only `get_start_time` consults
the accumulating patch: it returns the patch's `started` value whenever one
is present (truthy), falling back to the body's otherwise; the remaining
reads (is_started, is_finished, is_sleeping, is_awakened, get_awake_time,
get_retry_count) take only the body, so pending writes are invisible to
them. -/
theorem c3_get_start_time_prefers_patch (body patch : Value)
    (handler : String) :
    (truthy ((progress_record patch handler).get "started" .null) = true →
      get_start_time body patch handler
        = (progress_record patch handler).get "started" .null) ∧
    (truthy ((progress_record patch handler).get "started" .null) = false →
      get_start_time body patch handler
        = (progress_record body handler).get "started" .null) := by
  constructor <;> intro h <;> simp [get_start_time, pyOr, h]

/-- Witness for C3's amended claim: both documents carry a `started`
timestamp and the patch's wins. -/
theorem c3_get_start_time_prefers_patch_witness :
    truthy ((progress_record (Value.map [("status", Value.map [("kopf",
        Value.map [("progress", Value.map [("h", Value.map
        [("started", Value.str "2020-02-02")])])])])]) "h").get "started"
        .null) = true ∧
    get_start_time
        (Value.map [("status", Value.map [("kopf", Value.map [("progress",
          Value.map [("h", Value.map
          [("started", Value.str "2019-01-01")])])])])])
        (Value.map [("status", Value.map [("kopf", Value.map [("progress",
          Value.map [("h", Value.map
          [("started", Value.str "2020-02-02")])])])])])
        "h"
      = (progress_record (Value.map [("status", Value.map [("kopf",
          Value.map [("progress", Value.map [("h", Value.map
          [("started", Value.str "2020-02-02")])])])])]) "h").get "started"
          .null :=
  ⟨rfl, (c3_get_start_time_prefers_patch _ _ "h").1 rfl⟩

theorem cleanAlong_nil (v : Value) : cleanAlong v [] = true := by
  cases v <;> rfl

theorem cleanAlong_emptyMap (ks : List String) :
    cleanAlong emptyMap ks = true := by
  cases ks with
  | nil => rfl
  | cons k rest => rw [emptyMap, cleanAlong]; simp [alookup]

theorem readPath_nil (v : Value) : readPath v [] = v := rfl

theorem readPath_cons (v : Value) (k : String) (ks : List String) :
    readPath v (k :: ks) = readPath (v.get k emptyMap) ks := rfl

/-- The master write/read lemma: updating along `ks ++ ks2` and reading
back along `ks` shows the update of the inner value, provided the documents
along `ks` are dicts (or absent). -/
theorem readPath_updPath_append (ks : List String) : ∀ (p : Value)
    (ks2 : List String) (f : Value → Value), cleanAlong p ks = true →
    readPath (updPath p (ks ++ ks2) f) ks = updPath (readPath p ks) ks2 f := by
  induction ks with
  | nil => intro p ks2 f _; rfl
  | cons k rest ih =>
      intro p ks2 f hc
      rcases p with _ | _ | _ | _ | _ | m
      case map =>
        rw [cleanAlong] at hc
        rw [List.cons_append, updPath, readPath_cons, readPath_cons]
        rw [show (Value.map (aset m k (updPath ((alookup m k).getD emptyMap)
              (rest ++ ks2) f))).get k emptyMap
            = updPath ((alookup m k).getD emptyMap) (rest ++ ks2) f from by
          simp [Value.get, alookup_aset_self]]
        rcases hk : alookup m k with _ | w
        · rw [Option.getD_none]
          rw [show (Value.map m).get k emptyMap = emptyMap from by
            simp [Value.get, hk]]
          exact ih emptyMap ks2 f (cleanAlong_emptyMap rest)
        · simp only [hk] at hc
          rw [Option.getD_some]
          rw [show (Value.map m).get k emptyMap = w from by
            simp [Value.get, hk]]
          exact ih w ks2 f hc
      all_goals rw [cleanAlong] at hc
      all_goals simp_all

/-- Cleanliness along a path survives an update along an extension of it. -/
theorem cleanAlong_updPath (ks : List String) : ∀ (p : Value)
    (ks2 : List String) (f : Value → Value), cleanAlong p ks = true →
    cleanAlong (updPath p (ks ++ ks2) f) ks = true := by
  induction ks with
  | nil => intro p ks2 f _; exact cleanAlong_nil _
  | cons k rest ih =>
      intro p ks2 f hc
      rcases p with _ | _ | _ | _ | _ | m
      case map =>
        rw [cleanAlong] at hc
        rw [List.cons_append, updPath, cleanAlong, alookup_aset_self]
        rcases hk : alookup m k with _ | w
        · rw [Option.getD_none]
          exact ih emptyMap ks2 f (cleanAlong_emptyMap rest)
        · simp only [hk] at hc
          rw [Option.getD_some]
          exact ih w ks2 f hc
      all_goals rw [cleanAlong] at hc
      all_goals simp_all

theorem entriesAreMaps_aset (m : List (String × Value)) (k : String)
    (v : Value) (hm : entriesAreMaps (.map m) = true)
    (hv : ∃ mv, v = Value.map mv) :
    entriesAreMaps (.map (aset m k v)) = true := by
  rw [entriesAreMaps] at hm ⊢
  rw [List.all_eq_true] at hm ⊢
  intro kv hkv
  induction m with
  | nil =>
      rw [aset] at hkv
      simp at hkv
      obtain ⟨mv, hmv⟩ := hv
      simp [hkv, hmv]
  | cons kv' rest ih =>
      rw [aset] at hkv
      by_cases hk : kv'.1 = k
      · rw [show (kv'.1, kv'.2) = kv' from rfl] at hkv
        rw [if_pos hk] at hkv
        rcases List.mem_cons.mp hkv with he | hm2
        · obtain ⟨mv, hmv⟩ := hv
          simp [he, hmv]
        · exact hm kv (List.mem_cons_of_mem _ hm2)
      · rw [show (kv'.1, kv'.2) = kv' from rfl] at hkv
        rw [if_neg hk] at hkv
        rcases List.mem_cons.mp hkv with he | hm2
        · exact hm kv (he ▸ List.mem_cons_self _ _)
        · exact ih (fun x hx => hm x (List.mem_cons_of_mem _ hx)) hm2

theorem alookup_mem {κ α : Type} [DecidableEq κ] (m : List (κ × α)) (k : κ)
    (w : α) (h : alookup m k = some w) : (k, w) ∈ m := by
  induction m with
  | nil => simp [alookup] at h
  | cons kv rest ih =>
      rcases kv with ⟨k', v⟩
      rw [alookup] at h
      by_cases hk : k' = k
      · rw [if_pos hk] at h
        cases h
        subst hk
        exact List.mem_cons_self _ _
      · rw [if_neg hk] at h
        exact List.mem_cons_of_mem _ (ih h)

theorem kopf_progress_readPath (p : Value) :
    kopf_progress p = readPath p ["status", "kopf", "progress"] := rfl

theorem progressClean_parts (p : Value) (hc : progressClean p = true) :
    cleanAlong p ["status", "kopf", "progress"] = true ∧
    entriesAreMaps (kopf_progress p) = true := by
  rw [progressClean] at hc
  exact Bool.and_eq_true_iff.mp hc

theorem kopf_progress_isMap (p : Value) (hc : progressClean p = true) :
    ∃ mp, kopf_progress p = Value.map mp := by
  have hce := (progressClean_parts p hc).2
  rcases hkp : kopf_progress p with _ | _ | _ | _ | _ | mp
  all_goals rw [hkp] at hce
  case map => exact ⟨mp, rfl⟩
  all_goals rw [entriesAreMaps] at hce
  all_goals simp_all

/-- Reading any handler's record through a progress-record write: the
written handler's record is transformed, the others are untouched. -/
theorem progress_record_updPath (p : Value) (hdl h' : String)
    (f : Value → Value) (hc : progressClean p = true) :
    progress_record (updPath p ["status", "kopf", "progress", hdl] f) h'
      = if h' = hdl then f (progress_record p hdl)
        else progress_record p h' := by
  obtain ⟨hca, _⟩ := progressClean_parts p hc
  obtain ⟨mp, hmp⟩ := kopf_progress_isMap p hc
  have h1 := readPath_updPath_append ["status", "kopf", "progress"] p [hdl]
    f hca
  rw [progress_record, progress_record, progress_record,
      kopf_progress_readPath, kopf_progress_readPath,
      show (["status", "kopf", "progress", hdl] : List String)
        = ["status", "kopf", "progress"] ++ [hdl] from rfl, h1,
      ← kopf_progress_readPath, hmp]
  rw [show updPath (Value.map mp) [hdl] f
      = Value.map (aset mp hdl (f ((alookup mp hdl).getD emptyMap)))
    from by rw [updPath, updPath_nil]]
  by_cases he : h' = hdl
  · rw [if_pos he, he]
    simp [Value.get, alookup_aset_self]
  · rw [if_neg he]
    simp [Value.get, alookup_aset_ne _ _ _ _ he]

/-- A progress-record write keeps the patch clean when the write function
turns dicts into dicts. -/
theorem progressClean_progress_write (p : Value) (hdl : String)
    (f : Value → Value) (hc : progressClean p = true)
    (hf : ∀ mv, ∃ m2, f (Value.map mv) = Value.map m2) :
    progressClean (updPath p ["status", "kopf", "progress", hdl] f)
      = true := by
  obtain ⟨hca, hce⟩ := progressClean_parts p hc
  obtain ⟨mp, hmp⟩ := kopf_progress_isMap p hc
  rw [progressClean, Bool.and_eq_true_iff]
  constructor
  · exact cleanAlong_updPath _ p [hdl] f hca
  · rw [kopf_progress_readPath,
        show (["status", "kopf", "progress", hdl] : List String)
          = ["status", "kopf", "progress"] ++ [hdl] from rfl,
        readPath_updPath_append _ p [hdl] f hca,
        ← kopf_progress_readPath, hmp]
    rw [show updPath (Value.map mp) [hdl] f
        = Value.map (aset mp hdl (f ((alookup mp hdl).getD emptyMap)))
      from by rw [updPath, updPath_nil]]
    apply entriesAreMaps_aset _ _ _ (hmp ▸ hce)
    rcases hk : alookup mp hdl with _ | w
    · rw [Option.getD_none]
      exact hf []
    · rw [Option.getD_some]
      have hw : ∃ mw, w = Value.map mw := by
        have hmem := alookup_mem mp hdl w hk
        have hce2 := hce
        rw [hmp, entriesAreMaps, List.all_eq_true] at hce2
        have hx := hce2 (hdl, w) hmem
        rcases w with _ | _ | _ | _ | _ | mw
        case map => exact ⟨mw, rfl⟩
        all_goals simp_all
      obtain ⟨mw, hmw⟩ := hw
      rw [hmw]
      exact hf mw

theorem cleanAlong_status_of (p : Value)
    (hc : cleanAlong p ["status", "kopf", "progress"] = true) :
    cleanAlong p ["status"] = true := by
  rcases p with _ | _ | _ | _ | _ | m
  case map =>
    rw [cleanAlong] at hc ⊢
    rcases hk : alookup m "status" with _ | w
    · rfl
    · exact cleanAlong_nil w
  all_goals rw [cleanAlong] at hc
  all_goals simp_all

/-- A write into `status.<handler>` with a handler id other than `kopf`
leaves the whole `status.kopf.progress` map untouched. -/
theorem kopf_progress_result_write (p : Value) (hdl : String)
    (g : Value → Value) (hne : hdl ≠ "kopf") :
    kopf_progress (updPath p ["status", hdl] g) = kopf_progress p := by
  rcases p with _ | _ | _ | _ | _ | m
  case map =>
    rw [updPath, kopf_progress, kopf_progress]
    rw [show ∀ X : Value, (Value.map (aset m "status" X)).get "status" emptyMap
        = X from fun X => by simp [Value.get, alookup_aset_self]]
    rcases hs : alookup m "status" with _ | sv
    · rw [Option.getD_none]
      rw [show (Value.map m).get "status" emptyMap = emptyMap from by
        simp [Value.get, hs]]
      rw [show updPath emptyMap [hdl] g = Value.map [(hdl, g emptyMap)]
        from by rw [emptyMap, updPath]; rfl]
      rw [show (Value.map [(hdl, g emptyMap)]).get "kopf" emptyMap
          = emptyMap from by simp [Value.get, alookup, hne]]
      rfl
    · rw [Option.getD_some]
      rw [show (Value.map m).get "status" emptyMap = sv from by
        simp [Value.get, hs]]
      rcases sv with _ | _ | _ | _ | _ | ms
      case map =>
        rw [show updPath (Value.map ms) [hdl] g
            = Value.map (aset ms hdl (g ((alookup ms hdl).getD emptyMap)))
          from by rw [updPath, updPath_nil]]
        rw [show (Value.map (aset ms hdl (g ((alookup ms hdl).getD
              emptyMap)))).get "kopf" emptyMap
            = (Value.map ms).get "kopf" emptyMap from by
          simp [Value.get, alookup_aset_ne _ _ _ _
            (fun he => hne he.symm)]]
      all_goals rfl
  all_goals rfl

/-- A progress-record write does not disturb `status.<h'>` for `h'` other
than `kopf`. -/
theorem status_lookup_progress_write (p : Value) (hdl h' : String)
    (f : Value → Value) (hne : h' ≠ "kopf") :
    ((updPath p ["status", "kopf", "progress", hdl] f).get "status"
        emptyMap).lookup h'
      = (p.get "status" emptyMap).lookup h' := by
  rcases p with _ | _ | _ | _ | _ | m
  case map =>
    rw [updPath]
    rw [show ∀ X : Value, (Value.map (aset m "status" X)).get "status" emptyMap
        = X from fun X => by simp [Value.get, alookup_aset_self]]
    rcases hs : alookup m "status" with _ | sv
    · rw [Option.getD_none]
      rw [show (Value.map m).get "status" emptyMap = emptyMap from by
        simp [Value.get, hs]]
      rw [show updPath emptyMap ["kopf", "progress", hdl] f
          = Value.map [("kopf", updPath emptyMap ["progress", hdl] f)]
        from by rw [emptyMap, updPath]; rfl]
      rw [show ∀ X : Value, (Value.map [("kopf", X)]).lookup h' = none from
        fun X => by
          simp only [Value.lookup, alookup]
          rw [if_neg (fun he => hne he.symm)]]
      rfl
    · rw [Option.getD_some]
      rw [show (Value.map m).get "status" emptyMap = sv from by
        simp [Value.get, hs]]
      rcases sv with _ | _ | _ | _ | _ | ms
      case map =>
        rw [show updPath (Value.map ms) ["kopf", "progress", hdl] f
            = Value.map (aset ms "kopf"
                (updPath ((alookup ms "kopf").getD emptyMap)
                  ["progress", hdl] f)) from by rw [updPath]]
        simp [Value.lookup, alookup_aset_ne _ _ _ _ hne]
      all_goals rfl
  all_goals rfl

theorem cleanAlong_cons_map (m : List (String × Value)) (k : String)
    (rest : List String) :
    cleanAlong (.map m) (k :: rest)
      = (match alookup m k with
         | none => true
         | some w => cleanAlong w rest) := by
  rw [cleanAlong]

theorem cleanAlong_pair_of (p : Value) (x : String)
    (hc : cleanAlong p ["status", "kopf", "progress"] = true) :
    cleanAlong p ["status", x] = true := by
  rcases p with _ | _ | _ | _ | _ | m
  case map =>
    rw [cleanAlong_cons_map] at hc ⊢
    rcases hs : alookup m "status" with _ | sv
    · rfl
    · simp only [hs] at hc ⊢
      rcases sv with _ | _ | _ | _ | _ | ms
      case map =>
        rw [cleanAlong_cons_map]
        rcases hx : alookup ms x with _ | w
        · rfl
        · exact cleanAlong_nil w
      all_goals simp_all [cleanAlong]
  all_goals simp_all [cleanAlong]

/-- Reading `status.<h'>` through a `status.<hdl>` result-write. -/
theorem status_lookup_result_write (p : Value) (hdl h' : String)
    (g : Value → Value) (hc2 : cleanAlong p ["status", hdl] = true) :
    ((updPath p ["status", hdl] g).get "status" emptyMap).lookup h'
      = if h' = hdl
        then some (g ((p.get "status" emptyMap).get hdl emptyMap))
        else (p.get "status" emptyMap).lookup h' := by
  rcases p with _ | _ | _ | _ | _ | m
  case map =>
    rw [cleanAlong_cons_map] at hc2
    rw [updPath]
    rw [show ∀ X : Value, (Value.map (aset m "status" X)).get "status" emptyMap
        = X from fun X => by simp [Value.get, alookup_aset_self]]
    rcases hs : alookup m "status" with _ | sv
    · rw [Option.getD_none]
      rw [show (Value.map m).get "status" emptyMap = emptyMap from by
        simp [Value.get, hs]]
      rw [show updPath emptyMap [hdl] g = Value.map [(hdl, g emptyMap)]
        from by rw [emptyMap, updPath]; rfl]
      by_cases he : h' = hdl
      · rw [if_pos he, he]
        simp [Value.lookup, alookup, Value.get, emptyMap]
      · rw [if_neg he]
        simp only [Value.lookup, alookup, emptyMap]
        rw [if_neg (fun x => he x.symm)]
    · simp only [hs] at hc2
      rw [Option.getD_some]
      rw [show (Value.map m).get "status" emptyMap = sv from by
        simp [Value.get, hs]]
      rcases sv with _ | _ | _ | _ | _ | ms
      case map =>
        rw [show updPath (Value.map ms) [hdl] g
            = Value.map (aset ms hdl (g ((alookup ms hdl).getD emptyMap)))
          from by rw [updPath, updPath_nil]]
        by_cases he : h' = hdl
        · rw [if_pos he, he]
          simp [Value.lookup, Value.get, alookup_aset_self]
        · rw [if_neg he]
          simp [Value.lookup, Value.get, alookup_aset_ne _ _ _ _ he]
      all_goals simp_all [cleanAlong]
  all_goals simp_all [cleanAlong]

/-- A result-write into `status.<hdl>`, `hdl` not `kopf`, keeps the patch
clean. -/
theorem progressClean_result_write (p : Value) (hdl : String)
    (g : Value → Value) (hc : progressClean p = true) (hne : hdl ≠ "kopf") :
    progressClean (updPath p ["status", hdl] g) = true := by
  obtain ⟨hca, hce⟩ := progressClean_parts p hc
  rw [progressClean, Bool.and_eq_true_iff]
  refine ⟨?_, ?_⟩
  · rcases p with _ | _ | _ | _ | _ | m
    case map =>
      rw [cleanAlong_cons_map] at hca
      rw [updPath, cleanAlong_cons_map, alookup_aset_self]
      rcases hs : alookup m "status" with _ | sv
      · rw [Option.getD_none]
        rw [show updPath emptyMap [hdl] g = Value.map [(hdl, g emptyMap)]
          from by rw [emptyMap, updPath]; rfl]
        show cleanAlong (Value.map [(hdl, g emptyMap)])
          ["kopf", "progress"] = true
        rw [cleanAlong_cons_map]
        simp only [alookup]
        rw [if_neg hne]
      · simp only [hs] at hca
        rw [Option.getD_some]
        rcases sv with _ | _ | _ | _ | _ | ms
        case map =>
          rw [show updPath (Value.map ms) [hdl] g
              = Value.map (aset ms hdl (g ((alookup ms hdl).getD emptyMap)))
            from by rw [updPath, updPath_nil]]
          show cleanAlong (Value.map (aset ms hdl
            (g ((alookup ms hdl).getD emptyMap)))) ["kopf", "progress"] = true
          rw [cleanAlong_cons_map]
          rw [alookup_aset_ne _ _ _ _ (fun he => hne he.symm)]
          exact hca
        all_goals simp_all [cleanAlong]
    all_goals simp_all [cleanAlong]
  · rw [kopf_progress_result_write p hdl g hne]
    exact hce

theorem Value.get_eq_lookup_getD (v : Value) (k : String) (d : Value) :
    v.get k d = (v.lookup k).getD d := by
  cases v <;> rfl

theorem alookup_foldl_aset (kvs : List (String × Value)) :
    ∀ (mv : List (String × Value)) (key : String),
    (∀ kv ∈ kvs, kv.1 ≠ key) →
    alookup (kvs.foldl (fun acc kv => aset acc kv.1 kv.2) mv) key
      = alookup mv key := by
  induction kvs with
  | nil => intro mv key _; rfl
  | cons kv kvs' ih =>
      intro mv key hk
      rw [List.foldl_cons]
      rw [ih _ _ (fun x hx => hk x (List.mem_cons_of_mem _ hx))]
      exact alookup_aset_ne _ _ _ _
        (fun he => hk kv (List.mem_cons_self _ _) he.symm)

theorem update_lookup_not_key (v : Value) (kvs : List (String × Value))
    (key : String) (hk : ∀ kv ∈ kvs, kv.1 ≠ key) :
    (v.update kvs).lookup key = v.lookup key := by
  rcases v with _ | _ | _ | _ | _ | mv
  case map =>
    rw [Value.update, Value.lookup, Value.lookup]
    exact alookup_foldl_aset kvs mv key hk
  all_goals rfl

theorem progress_record_isMap (p : Value) (h : String)
    (hc : progressClean p = true) :
    ∃ mv, progress_record p h = Value.map mv := by
  obtain ⟨mp, hmp⟩ := kopf_progress_isMap p hc
  have hce := (progressClean_parts p hc).2
  rw [progress_record, hmp]
  rw [Value.get_eq_lookup_getD, Value.lookup]
  rcases hl : alookup mp h with _ | w
  · exact ⟨[], rfl⟩
  · have hmem := alookup_mem mp h w hl
    rw [hmp, entriesAreMaps, List.all_eq_true] at hce
    have hx := hce (h, w) hmem
    rcases w with _ | _ | _ | _ | _ | mw
    case map => exact ⟨mw, rfl⟩
    all_goals simp_all

/-- C6 counterexample: for the handler id "kopf" the claim's "leaving
status.<handler_id> untouched when result is null" fails — the progress
bookkeeping itself lives under `status.kopf`, so even a result-less
`store_success` changes it. -/
theorem c6_store_success_counterexample :
    ((store_success (Value.map []) (Value.map []) "kopf" "t0" none).get
        "status" emptyMap).lookup "kopf"
      ≠ ((Value.map []).get "status" emptyMap).lookup "kopf" := by
  decide

/-- C6 amended: for every handler whose id is not the reserved key `kopf`,
`store_success` writes `stopped = now`, `success = true` and
`retries = previous body count + 1` into the patch's progress record for
the handler, and touches `status.<handler_id>` exactly when a result is
provided, merging the result's keys into it (over what the patch already
held there). -/
theorem c6_store_success_amended (body patch : Value) (handler now : String)
    (result : Option (List (String × Value))) (n : Int)
    (hc : progressClean patch = true) (hk : handler ≠ "kopf")
    (hr : get_retry_count body handler = Value.int n) :
    ((progress_record (store_success body patch handler now result)
        handler).get "stopped" .null = .str now) ∧
    ((progress_record (store_success body patch handler now result)
        handler).get "success" .null = .bool true) ∧
    ((progress_record (store_success body patch handler now result)
        handler).get "retries" .null = .int (n + 1)) ∧
    (result = none →
      ((store_success body patch handler now result).get "status"
          emptyMap).lookup handler
        = (patch.get "status" emptyMap).lookup handler) ∧
    (∀ r, result = some r →
      ((store_success body patch handler now result).get "status"
          emptyMap).lookup handler
        = some (Value.update
            ((patch.get "status" emptyMap).get handler emptyMap) r)) := by
  have hretry : retryInt body handler = n := by
    rw [retryInt, hr]
  obtain ⟨mv, hmv⟩ := progress_record_isMap patch handler hc
  have hc1 := progressClean_progress_write patch handler
    (fun rec => rec.update
      [("stopped", .str now), ("success", .bool true),
       ("retries", .int (retryInt body handler + 1)), ("message", .null)])
    hc (fun mw => ⟨_, rfl⟩)
  have hrec1 := progress_record_updPath patch handler handler
    (fun rec => rec.update
      [("stopped", .str now), ("success", .bool true),
       ("retries", .int (retryInt body handler + 1)), ("message", .null)])
    hc
  rw [if_pos rfl, hmv] at hrec1
  have hrecfin : progress_record (store_success body patch handler now result)
      handler
      = (Value.map mv).update
        [("stopped", .str now), ("success", .bool true),
         ("retries", .int (retryInt body handler + 1)),
         ("message", .null)] := by
    rcases result with _ | r
    · rw [store_success]
      exact hrec1
    · rw [store_success]
      rw [progress_record, kopf_progress_result_write _ handler _ hk,
          ← progress_record]
      exact hrec1
  rw [hrecfin]
  rw [show (Value.map mv).update
      [("stopped", .str now), ("success", .bool true),
       ("retries", .int (retryInt body handler + 1)), ("message", .null)]
      = Value.map (aset (aset (aset (aset mv "stopped" (.str now)) "success"
          (.bool true)) "retries" (.int (retryInt body handler + 1)))
          "message" .null) from rfl]
  refine ⟨?_, ?_, ?_, ?_, ?_⟩
  · rw [Value.get_eq_lookup_getD, Value.lookup,
        alookup_aset_ne _ _ _ _ (by decide : ("stopped" : String) ≠ "message"),
        alookup_aset_ne _ _ _ _ (by decide : ("stopped" : String) ≠ "retries"),
        alookup_aset_ne _ _ _ _ (by decide : ("stopped" : String) ≠ "success"),
        alookup_aset_self]
    rfl
  · rw [Value.get_eq_lookup_getD, Value.lookup,
        alookup_aset_ne _ _ _ _ (by decide : ("success" : String) ≠ "message"),
        alookup_aset_ne _ _ _ _ (by decide : ("success" : String) ≠ "retries"),
        alookup_aset_self]
    rfl
  · rw [Value.get_eq_lookup_getD, Value.lookup,
        alookup_aset_ne _ _ _ _ (by decide : ("retries" : String) ≠ "message"),
        alookup_aset_self, hretry]
    rfl
  · intro hres
    subst hres
    rw [store_success]
    exact status_lookup_progress_write patch handler handler _ hk
  · intro r hres
    subst hres
    rw [store_success]
    rw [status_lookup_result_write _ handler handler _
          (cleanAlong_pair_of _ handler (progressClean_parts _ hc1).1),
        if_pos rfl]
    rw [show ∀ v : Value, v.get handler emptyMap
        = (v.lookup handler).getD emptyMap from
      fun v => Value.get_eq_lookup_getD v handler emptyMap]
    rw [status_lookup_progress_write patch handler handler _ hk,
        ← Value.get_eq_lookup_getD]

/-- Witness for C6's amended claim at a fresh patch with a result. -/
theorem c6_store_success_amended_witness :
    progressClean (Value.map []) = true ∧
    ("h" : String) ≠ "kopf" ∧
    get_retry_count (Value.map []) "h" = Value.int 0 ∧
    ((progress_record (store_success (Value.map []) (Value.map []) "h" "t"
        (some [("ok", Value.bool true)])) "h").get "stopped" .null
      = .str "t") ∧
    ((progress_record (store_success (Value.map []) (Value.map []) "h" "t"
        (some [("ok", Value.bool true)])) "h").get "success" .null
      = .bool true) ∧
    ((progress_record (store_success (Value.map []) (Value.map []) "h" "t"
        (some [("ok", Value.bool true)])) "h").get "retries" .null
      = .int (0 + 1)) ∧
    (∀ r, (some [("ok", Value.bool true)]
        : Option (List (String × Value))) = some r →
      ((store_success (Value.map []) (Value.map []) "h" "t"
          (some [("ok", Value.bool true)])).get "status"
          emptyMap).lookup "h"
        = some (Value.update
            (((Value.map []).get "status" emptyMap).get "h" emptyMap) r)) :=
  have h := c6_store_success_amended (Value.map []) (Value.map []) "h" "t"
    (some [("ok", Value.bool true)]) 0 rfl (by decide) rfl
  ⟨rfl, by decide, rfl, h.1, h.2.1, h.2.2.1, h.2.2.2.2⟩

/-- One C4 operation neither sets nor clears the `failure` key of any
handler's record (when it is not a `store_failure` and its handler id is
not `kopf`), and keeps the patch clean. -/
theorem applyOp_failure_flag (body patch : Value) (op : ProgressOp)
    (h : String) (hc : progressClean patch = true)
    (hks : op.handler ≠ "kopf") (hnf : op.isFailureOp = false) :
    (progress_record (applyOp body patch op) h).lookup "failure"
      = (progress_record patch h).lookup "failure" ∧
    progressClean (applyOp body patch op) = true := by
  have step : ∀ (p : Value) (hdl : String) (kvs : List (String × Value)),
      progressClean p = true →
      (∀ kv ∈ kvs, kv.1 ≠ "failure") →
      (progress_record
          (updPath p ["status", "kopf", "progress", hdl]
            (fun rec => rec.update kvs)) h).lookup "failure"
        = (progress_record p h).lookup "failure" ∧
      progressClean (updPath p ["status", "kopf", "progress", hdl]
          (fun rec => rec.update kvs)) = true := by
    intro p hdl kvs hcp hkvs
    constructor
    · rw [progress_record_updPath p hdl h _ hcp]
      by_cases he : h = hdl
      · rw [if_pos he, he]
        exact update_lookup_not_key _ kvs "failure" hkvs
      · rw [if_neg he]
    · exact progressClean_progress_write p hdl _ hcp (fun mw => ⟨_, rfl⟩)
  have hone : ∀ (key : String) (x : Value), key ≠ "failure" →
      ∀ kv ∈ [(key, x)], kv.1 ≠ "failure" := by
    rintro key x hk kv hkv
    rw [List.mem_singleton] at hkv
    subst hkv
    exact hk
  rcases op with ⟨hdl, t⟩ | ⟨hdl, ts⟩ | ⟨hdl, ts⟩ | ⟨hdl, t, result⟩
    | ⟨hdl, t, m⟩
  · rw [show applyOp body patch (.opStart hdl t)
        = updPath patch ["status", "kopf", "progress", hdl]
            (fun rec => rec.update [("started", Value.str t)]) from rfl]
    exact step patch hdl _ hc (hone _ _ (by decide))
  · rcases ts with _ | s
    · rw [show applyOp body patch (.opAwake hdl none)
          = updPath patch ["status", "kopf", "progress", hdl]
              (fun rec => rec.update [("delayed", Value.null)]) from rfl]
      exact step patch hdl _ hc (hone _ _ (by decide))
    · rw [show applyOp body patch (.opAwake hdl (some s))
          = updPath patch ["status", "kopf", "progress", hdl]
              (fun rec => rec.update [("delayed", Value.str s)]) from rfl]
      exact step patch hdl _ hc (hone _ _ (by decide))
  · rcases ts with _ | s
    · rw [show applyOp body patch (.opRetry hdl none)
          = updPath (updPath patch ["status", "kopf", "progress", hdl]
              (fun rec => rec.update
                [("retries", Value.int (retryInt body hdl + 1))]))
              ["status", "kopf", "progress", hdl]
              (fun rec => rec.update [("delayed", Value.null)]) from rfl]
      have s1 := step patch hdl
        [("retries", Value.int (retryInt body hdl + 1))] hc
        (hone _ _ (by decide))
      have s2 := step _ hdl [("delayed", Value.null)] s1.2
        (hone _ _ (by decide))
      exact ⟨s2.1.trans s1.1, s2.2⟩
    · rw [show applyOp body patch (.opRetry hdl (some s))
          = updPath (updPath patch ["status", "kopf", "progress", hdl]
              (fun rec => rec.update
                [("retries", Value.int (retryInt body hdl + 1))]))
              ["status", "kopf", "progress", hdl]
              (fun rec => rec.update [("delayed", Value.str s)]) from rfl]
      have s1 := step patch hdl
        [("retries", Value.int (retryInt body hdl + 1))] hc
        (hone _ _ (by decide))
      have s2 := step _ hdl [("delayed", Value.str s)] s1.2
        (hone _ _ (by decide))
      exact ⟨s2.1.trans s1.1, s2.2⟩
  · have hne : hdl ≠ "kopf" := hks
    have hfour : ∀ kv ∈ [("stopped", Value.str t),
        ("success", Value.bool true),
        ("retries", Value.int (retryInt body hdl + 1)),
        ("message", Value.null)], kv.1 ≠ "failure" := by
      rintro kv hkv
      simp only [List.mem_cons, List.not_mem_nil, or_false] at hkv
      rcases hkv with rfl | rfl | rfl | rfl
      · show ("stopped" : String) ≠ "failure"
        decide
      · show ("success" : String) ≠ "failure"
        decide
      · show ("retries" : String) ≠ "failure"
        decide
      · show ("message" : String) ≠ "failure"
        decide
    have s1 := step patch hdl
      [("stopped", Value.str t), ("success", Value.bool true),
       ("retries", Value.int (retryInt body hdl + 1)),
       ("message", Value.null)] hc hfour
    rcases result with _ | r
    · exact s1
    · rw [show applyOp body patch (.opSuccess hdl t (some r))
          = updPath (updPath patch ["status", "kopf", "progress", hdl]
              (fun rec => rec.update
                [("stopped", Value.str t), ("success", Value.bool true),
                 ("retries", Value.int (retryInt body hdl + 1)),
                 ("message", Value.null)]))
              ["status", hdl] (fun v => v.update r) from rfl]
      constructor
      · rw [progress_record, kopf_progress_result_write _ hdl _ hne,
            ← progress_record]
        exact s1.1
      · exact progressClean_result_write _ hdl _ s1.2 hne
  · simp [ProgressOp.isFailureOp] at hnf

/-- Folding a failure-free, non-`kopf` sequence of writes never introduces
a `failure` key. -/
theorem applyOps_failure_flag (body : Value) (h : String)
    (ops : List ProgressOp) : ∀ (patch : Value),
    progressClean patch = true →
    (∀ op ∈ ops, op.handler ≠ "kopf" ∧ op.isFailureOp = false) →
    (progress_record (applyOps body patch ops) h).lookup "failure"
      = (progress_record patch h).lookup "failure" ∧
    progressClean (applyOps body patch ops) = true := by
  induction ops with
  | nil => intro patch hc _; exact ⟨rfl, hc⟩
  | cons op ops' ih =>
      intro patch hc hops
      have h1 := applyOp_failure_flag body patch op h hc
        (hops op (List.mem_cons_self _ _)).1
        (hops op (List.mem_cons_self _ _)).2
      have h2 := ih (applyOp body patch op) h1.2
        (fun x hx => hops x (List.mem_cons_of_mem _ hx))
      rw [show applyOps body patch (op :: ops')
          = applyOps body (applyOp body patch op) ops' from rfl]
      exact ⟨h2.1.trans h1.1, h2.2⟩

/-- A single progress-store write that is not `store_success`, on a handler
other than `kopf`, leaves every record's `success` key unchanged and
preserves cleanliness. -/
theorem applyOp_success_flag (body patch : Value) (op : ProgressOp)
    (h : String) (hc : progressClean patch = true)
    (hks : op.handler ≠ "kopf") (hns : op.isSuccessOp = false) :
    (progress_record (applyOp body patch op) h).lookup "success"
      = (progress_record patch h).lookup "success" ∧
    progressClean (applyOp body patch op) = true := by
  have step : ∀ (p : Value) (hdl : String) (kvs : List (String × Value)),
      progressClean p = true →
      (∀ kv ∈ kvs, kv.1 ≠ "success") →
      (progress_record
          (updPath p ["status", "kopf", "progress", hdl]
            (fun rec => rec.update kvs)) h).lookup "success"
        = (progress_record p h).lookup "success" ∧
      progressClean (updPath p ["status", "kopf", "progress", hdl]
          (fun rec => rec.update kvs)) = true := by
    intro p hdl kvs hcp hkvs
    constructor
    · rw [progress_record_updPath p hdl h _ hcp]
      by_cases he : h = hdl
      · rw [if_pos he, he]
        exact update_lookup_not_key _ kvs "success" hkvs
      · rw [if_neg he]
    · exact progressClean_progress_write p hdl _ hcp (fun mw => ⟨_, rfl⟩)
  have hone : ∀ (key : String) (x : Value), key ≠ "success" →
      ∀ kv ∈ [(key, x)], kv.1 ≠ "success" := by
    rintro key x hk kv hkv
    rw [List.mem_singleton] at hkv
    subst hkv
    exact hk
  rcases op with ⟨hdl, t⟩ | ⟨hdl, ts⟩ | ⟨hdl, ts⟩ | ⟨hdl, t, result⟩
    | ⟨hdl, t, m⟩
  · rw [show applyOp body patch (.opStart hdl t)
        = updPath patch ["status", "kopf", "progress", hdl]
            (fun rec => rec.update [("started", Value.str t)]) from rfl]
    exact step patch hdl _ hc (hone _ _ (by decide))
  · rcases ts with _ | s
    · rw [show applyOp body patch (.opAwake hdl none)
          = updPath patch ["status", "kopf", "progress", hdl]
              (fun rec => rec.update [("delayed", Value.null)]) from rfl]
      exact step patch hdl _ hc (hone _ _ (by decide))
    · rw [show applyOp body patch (.opAwake hdl (some s))
          = updPath patch ["status", "kopf", "progress", hdl]
              (fun rec => rec.update [("delayed", Value.str s)]) from rfl]
      exact step patch hdl _ hc (hone _ _ (by decide))
  · rcases ts with _ | s
    · rw [show applyOp body patch (.opRetry hdl none)
          = updPath (updPath patch ["status", "kopf", "progress", hdl]
              (fun rec => rec.update
                [("retries", Value.int (retryInt body hdl + 1))]))
              ["status", "kopf", "progress", hdl]
              (fun rec => rec.update [("delayed", Value.null)]) from rfl]
      have s1 := step patch hdl
        [("retries", Value.int (retryInt body hdl + 1))] hc
        (hone _ _ (by decide))
      have s2 := step _ hdl [("delayed", Value.null)] s1.2
        (hone _ _ (by decide))
      exact ⟨s2.1.trans s1.1, s2.2⟩
    · rw [show applyOp body patch (.opRetry hdl (some s))
          = updPath (updPath patch ["status", "kopf", "progress", hdl]
              (fun rec => rec.update
                [("retries", Value.int (retryInt body hdl + 1))]))
              ["status", "kopf", "progress", hdl]
              (fun rec => rec.update [("delayed", Value.str s)]) from rfl]
      have s1 := step patch hdl
        [("retries", Value.int (retryInt body hdl + 1))] hc
        (hone _ _ (by decide))
      have s2 := step _ hdl [("delayed", Value.str s)] s1.2
        (hone _ _ (by decide))
      exact ⟨s2.1.trans s1.1, s2.2⟩
  · simp [ProgressOp.isSuccessOp] at hns
  · rw [show applyOp body patch (.opFailure hdl t m)
        = updPath patch ["status", "kopf", "progress", hdl]
            (fun rec => rec.update
              [("stopped", Value.str t), ("failure", Value.bool true),
               ("retries", Value.int (retryInt body hdl + 1)),
               ("message", Value.str m)]) from rfl]
    refine step patch hdl _ hc ?_
    rintro kv hkv
    simp only [List.mem_cons, List.not_mem_nil, or_false] at hkv
    rcases hkv with rfl | rfl | rfl | rfl
    · show ("stopped" : String) ≠ "success"
      decide
    · show ("failure" : String) ≠ "success"
      decide
    · show ("retries" : String) ≠ "success"
      decide
    · show ("message" : String) ≠ "success"
      decide

/-- Folding a success-free, non-`kopf` sequence of writes never introduces
a `success` key. -/
theorem applyOps_success_flag (body : Value) (h : String)
    (ops : List ProgressOp) : ∀ (patch : Value),
    progressClean patch = true →
    (∀ op ∈ ops, op.handler ≠ "kopf" ∧ op.isSuccessOp = false) →
    (progress_record (applyOps body patch ops) h).lookup "success"
      = (progress_record patch h).lookup "success" ∧
    progressClean (applyOps body patch ops) = true := by
  induction ops with
  | nil => intro patch hc _; exact ⟨rfl, hc⟩
  | cons op ops' ih =>
      intro patch hc hops
      have h1 := applyOp_success_flag body patch op h hc
        (hops op (List.mem_cons_self _ _)).1
        (hops op (List.mem_cons_self _ _)).2
      have h2 := ih (applyOp body patch op) h1.2
        (fun x hx => hops x (List.mem_cons_of_mem _ hx))
      rw [show applyOps body patch (op :: ops')
          = applyOps body (applyOp body patch op) ops' from rfl]
      exact ⟨h2.1.trans h1.1, h2.2⟩

/-- C4 counterexample: `store_failure` followed by `store_success` on the
same handler in one cycle leaves BOTH flags set in the merged record —
neither operation clears the opposite flag. -/
theorem c4_flags_counterexample :
    merged_field (Value.map [])
      (store_success (Value.map [])
        (store_failure (Value.map []) (Value.map []) "h" "t1" "boom")
        "h" "t2" none)
      "h" "success" = Value.bool true ∧
    merged_field (Value.map [])
      (store_success (Value.map [])
        (store_failure (Value.map []) (Value.map []) "h" "t1" "boom")
        "h" "t2" none)
      "h" "failure" = Value.bool true := by
  decide

/-- C4 amended: the mutual exclusion holds for sequences that stay on one
side: a sequence of progress-store writes containing no `store_failure`
(and no handler named `kopf`, whose results would overwrite the
bookkeeping subtree) never sets the failure flag, so the merged record
never carries both flags unless failure was already set; symmetrically, a
sequence containing no `store_success` never sets the success flag, so
both flags never appear unless success was already set.  The original
claim fails only when both kinds of store are mixed on one handler, or a
flag was already set. -/
theorem c4_flags_amended (body patch : Value) (ops : List ProgressOp)
    (h : String) (hc : progressClean patch = true)
    (hkopf : ∀ op ∈ ops, op.handler ≠ "kopf") :
    ((∀ op ∈ ops, op.isFailureOp = false) →
      merged_field body patch h "failure" ≠ Value.bool true →
      ¬(merged_field body (applyOps body patch ops) h "success"
          = Value.bool true ∧
        merged_field body (applyOps body patch ops) h "failure"
          = Value.bool true)) ∧
    ((∀ op ∈ ops, op.isSuccessOp = false) →
      merged_field body patch h "success" ≠ Value.bool true →
      ¬(merged_field body (applyOps body patch ops) h "success"
          = Value.bool true ∧
        merged_field body (applyOps body patch ops) h "failure"
          = Value.bool true)) := by
  constructor
  · intro hnf hinit
    rintro ⟨_, hfail⟩
    have hflag := (applyOps_failure_flag body h ops patch hc
      (fun op hop => ⟨hkopf op hop, hnf op hop⟩)).1
    rw [merged_field, hflag, ← merged_field] at hfail
    exact hinit hfail
  · intro hns hinit
    rintro ⟨hsucc, _⟩
    have hflag := (applyOps_success_flag body h ops patch hc
      (fun op hop => ⟨hkopf op hop, hns op hop⟩)).1
    rw [merged_field, hflag, ← merged_field] at hsucc
    exact hinit hsucc

/-- Witness for C4's amended claim: one result-less `store_success` on a
fresh body/patch pair for the failure-side half, one `store_failure` for
the success-side half. -/
theorem c4_flags_amended_witness :
    progressClean (Value.map []) = true ∧
    (∀ op ∈ [ProgressOp.opSuccess "h" "t" none], op.handler ≠ "kopf") ∧
    (∀ op ∈ [ProgressOp.opSuccess "h" "t" none], op.isFailureOp = false) ∧
    merged_field (Value.map []) (Value.map []) "h" "failure"
      ≠ Value.bool true ∧
    ¬(merged_field (Value.map [])
        (applyOps (Value.map []) (Value.map [])
          [ProgressOp.opSuccess "h" "t" none]) "h" "success"
          = Value.bool true ∧
      merged_field (Value.map [])
        (applyOps (Value.map []) (Value.map [])
          [ProgressOp.opSuccess "h" "t" none]) "h" "failure"
          = Value.bool true) ∧
    (∀ op ∈ [ProgressOp.opFailure "h" "t" "boom"], op.handler ≠ "kopf") ∧
    (∀ op ∈ [ProgressOp.opFailure "h" "t" "boom"], op.isSuccessOp = false) ∧
    merged_field (Value.map []) (Value.map []) "h" "success"
      ≠ Value.bool true ∧
    ¬(merged_field (Value.map [])
        (applyOps (Value.map []) (Value.map [])
          [ProgressOp.opFailure "h" "t" "boom"]) "h" "success"
          = Value.bool true ∧
      merged_field (Value.map [])
        (applyOps (Value.map []) (Value.map [])
          [ProgressOp.opFailure "h" "t" "boom"]) "h" "failure"
          = Value.bool true) :=
  ⟨rfl, by decide, by decide, by decide,
    (c4_flags_amended (Value.map []) (Value.map [])
      [ProgressOp.opSuccess "h" "t" none] "h" rfl (by decide)).1
      (by decide) (by decide),
    by decide, by decide, by decide,
    (c4_flags_amended (Value.map []) (Value.map [])
      [ProgressOp.opFailure "h" "t" "boom"] "h" rfl (by decide)).2
      (by decide) (by decide)⟩

/- ========== C9: adjust_watchers (kopf/reactor/discovery.py) ========== -/

/-- First-match lookup distributes over append. -/
theorem alookup_append {κ α : Type} [DecidableEq κ]
    (l1 l2 : List (κ × α)) (k : κ) :
    alookup (l1 ++ l2) k =
      match alookup l1 k with
      | some v => some v
      | none => alookup l2 k := by
  induction l1 with
  | nil => simp [alookup]
  | cons kv rest ih =>
    obtain ⟨k', v⟩ := kv
    by_cases h : k' = k <;> simp [alookup, h, ih]

/-- The spawn phase never touches keys that are already present. -/
theorem spawn_foldl_mono {τ : Type} (spawn : String × Resource → τ)
    (keys : List (String × Resource)) :
    ∀ (ws : List ((String × Resource) × τ)) (k : String × Resource),
    (alookup ws k).isSome →
    alookup (keys.foldl
      (fun ws key => if (alookup ws key).isSome then ws
                     else ws ++ [(key, spawn key)]) ws) k = alookup ws k := by
  induction keys with
  | nil => intro ws k _; rfl
  | cons key rest ih =>
    intro ws k hk
    rw [List.foldl_cons]
    by_cases h : (alookup ws key).isSome
    · rw [if_pos h]; exact ih ws k hk
    · rw [if_neg h]
      have h2 : alookup (ws ++ [(key, spawn key)]) k = alookup ws k := by
        rw [alookup_append]
        obtain ⟨v, hv⟩ := Option.isSome_iff_exists.mp hk
        rw [hv]
      rw [ih _ k (by rw [h2]; exact hk), h2]

/-- After the spawn phase every key of the list is present. -/
theorem spawn_foldl_covers {τ : Type} (spawn : String × Resource → τ)
    (keys : List (String × Resource)) :
    ∀ (ws : List ((String × Resource) × τ)) (k : String × Resource),
    k ∈ keys →
    (alookup (keys.foldl
      (fun ws key => if (alookup ws key).isSome then ws
                     else ws ++ [(key, spawn key)]) ws) k).isSome := by
  induction keys with
  | nil => intro ws k hk; cases hk
  | cons key rest ih =>
    intro ws k hk
    rw [List.foldl_cons]
    rcases List.mem_cons.mp hk with he | hm
    · subst he
      by_cases h : (alookup ws k).isSome
      · rw [if_pos h, spawn_foldl_mono spawn rest ws k h]; exact h
      · rw [if_neg h]
        have h2 : (alookup (ws ++ [(k, spawn k)]) k).isSome := by
          rw [alookup_append]
          rw [Option.not_isSome_iff_eq_none] at h
          rw [h]; simp [alookup]
        rw [spawn_foldl_mono spawn rest _ k h2]; exact h2
    · exact ih _ k hm

/-- The spawn phase adds no key outside the given list. -/
theorem spawn_foldl_no_junk {τ : Type} (spawn : String × Resource → τ)
    (keys : List (String × Resource)) :
    ∀ (ws : List ((String × Resource) × τ)) (k : String × Resource),
    (alookup (keys.foldl
      (fun ws key => if (alookup ws key).isSome then ws
                     else ws ++ [(key, spawn key)]) ws) k).isSome →
    k ∈ keys ∨ (alookup ws k).isSome := by
  induction keys with
  | nil => intro ws k hk; exact Or.inr hk
  | cons key rest ih =>
    intro ws k hk
    rw [List.foldl_cons] at hk
    by_cases h : (alookup ws key).isSome
    · rw [if_pos h] at hk
      rcases ih ws k hk with hm | hs
      · exact Or.inl (List.mem_cons_of_mem _ hm)
      · exact Or.inr hs
    · rw [if_neg h] at hk
      rcases ih _ k hk with hm | hs
      · exact Or.inl (List.mem_cons_of_mem _ hm)
      · rw [alookup_append] at hs
        by_cases hw : (alookup ws k).isSome
        · exact Or.inr hw
        · rw [Option.not_isSome_iff_eq_none] at hw
          rw [hw] at hs
          simp only [alookup] at hs
          by_cases he : key = k
          · exact Or.inl (List.mem_cons.mpr (Or.inl he.symm))
          · rw [if_neg he] at hs; cases hs

/-- A key of the list that was absent gets exactly the spawned task. -/
theorem spawn_foldl_new {τ : Type} (spawn : String × Resource → τ)
    (keys : List (String × Resource)) :
    ∀ (ws : List ((String × Resource) × τ)) (k : String × Resource),
    k ∈ keys → alookup ws k = none →
    alookup (keys.foldl
      (fun ws key => if (alookup ws key).isSome then ws
                     else ws ++ [(key, spawn key)]) ws) k = some (spawn k) := by
  induction keys with
  | nil => intro ws k hk; cases hk
  | cons key rest ih =>
    intro ws k hk hnone
    rw [List.foldl_cons]
    by_cases he : key = k
    · subst he
      rw [if_neg (by rw [hnone]; simp)]
      have h2 : alookup (ws ++ [(key, spawn key)]) key = some (spawn key) := by
        rw [alookup_append, hnone]; simp [alookup]
      rw [spawn_foldl_mono spawn rest _ key (by rw [h2]; rfl), h2]
    · have hm : k ∈ rest := by
        rcases List.mem_cons.mp hk with h1 | h1
        · exact absurd h1.symm he
        · exact h1
      by_cases h : (alookup ws key).isSome
      · rw [if_pos h]; exact ih ws k hm hnone
      · rw [if_neg h]
        refine ih _ k hm ?_
        rw [alookup_append, hnone]
        simp only [alookup, if_neg he]

/-- The spawn phase appends entries, all keyed in the given list. -/
theorem spawn_foldl_decomp {τ : Type} (spawn : String × Resource → τ)
    (keys : List (String × Resource)) :
    ∀ (ws : List ((String × Resource) × τ)),
    ∃ news, keys.foldl
      (fun ws key => if (alookup ws key).isSome then ws
                     else ws ++ [(key, spawn key)]) ws = ws ++ news ∧
      ∀ kv ∈ news, kv.1 ∈ keys := by
  induction keys with
  | nil => intro ws; exact ⟨[], by simp, by simp⟩
  | cons key rest ih =>
    intro ws
    rw [List.foldl_cons]
    by_cases h : (alookup ws key).isSome
    · rw [if_pos h]
      obtain ⟨news, h1, h2⟩ := ih ws
      exact ⟨news, h1, fun kv hkv => List.mem_cons_of_mem _ (h2 kv hkv)⟩
    · rw [if_neg h]
      obtain ⟨news, h1, h2⟩ := ih (ws ++ [(key, spawn key)])
      refine ⟨(key, spawn key) :: news, by rw [h1]; simp, ?_⟩
      intro kv hkv
      rcases List.mem_cons.mp hkv with he | hm
      · subst he; exact List.mem_cons_self _ _
      · exact List.mem_cons_of_mem _ (h2 kv hm)

/-- Lookup in the dimension-filtered watcher list. -/
theorem alookup_filter_keep {τ : Type} (nss : List String)
    (ress : List Resource) (l : List ((String × Resource) × τ))
    (k : String × Resource) :
    alookup (l.filter
      (fun kv => nss.contains kv.1.1 && ress.contains kv.1.2)) k =
      if (nss.contains k.1 && ress.contains k.2) = true
      then alookup l k else none := by
  induction l with
  | nil => simp [alookup]
  | cons kv rest ih =>
    obtain ⟨k', v⟩ := kv
    by_cases he : k' = k
    · subst he
      by_cases hp : (nss.contains k'.1 && ress.contains k'.2) = true
      · rw [List.filter_cons_of_pos (by simpa using hp), if_pos hp]
        simp [alookup]
      · rw [List.filter_cons_of_neg (by simpa using hp), ih,
          if_neg hp, if_neg hp]
    · have hstep : ∀ l2 : List ((String × Resource) × τ),
          alookup ((k', v) :: l2) k = alookup l2 k := by
        intro l2; simp [alookup, he]
      by_cases hp : (nss.contains k'.1 && ress.contains k'.2) = true
      · rw [List.filter_cons_of_pos (by simpa using hp), hstep, ih]
        by_cases hk : (nss.contains k.1 && ress.contains k.2) = true
        · simp only [if_pos hk]
          rw [hstep]
        · simp only [if_neg hk]
      · rw [List.filter_cons_of_neg (by simpa using hp), ih]
        by_cases hk : (nss.contains k.1 && ress.contains k.2) = true
        · simp only [if_pos hk]
          rw [hstep]
        · simp only [if_neg hk]

/-- Membership in the namespaces times resources product list. -/
theorem mem_nsProduct (nss : List String) (ress : List Resource)
    (k : String × Resource) :
    k ∈ nss.flatMap (fun ns => ress.map (fun r => (ns, r))) ↔
      k.1 ∈ nss ∧ k.2 ∈ ress := by
  obtain ⟨ns, r⟩ := k
  simp only [List.mem_flatMap, List.mem_map]
  constructor
  · rintro ⟨n, hn, r', hr', he⟩
    rw [Prod.mk.injEq] at he
    exact ⟨he.1 ▸ hn, he.2 ▸ hr'⟩
  · rintro ⟨hn, hr⟩
    exact ⟨ns, hn, r, hr, rfl⟩

/-- C9: after `adjust_watchers`, the key set of the watcher mapping is
exactly the Cartesian product of the dimensions (namespaces times
resources); pre-existing watchers inside the product keep their task, a
pair absent from the mapping gets a freshly spawned task, and the
cancelled-and-awaited tasks are exactly the original watchers whose
namespace or resource left the dimensions. -/
theorem c9_adjust_watchers {τ : Type} (spawn : String × Resource → τ)
    (nss : List String) (ress : List Resource)
    (watchers : List ((String × Resource) × τ)) :
    (∀ key : String × Resource,
       (alookup (adjust_watchers spawn nss ress watchers).1 key).isSome ↔
         (key.1 ∈ nss ∧ key.2 ∈ ress)) ∧
    (∀ key : String × Resource, key.1 ∈ nss → key.2 ∈ ress →
       (alookup watchers key).isSome →
       alookup (adjust_watchers spawn nss ress watchers).1 key
         = alookup watchers key) ∧
    (∀ key : String × Resource, key.1 ∈ nss → key.2 ∈ ress →
       alookup watchers key = none →
       alookup (adjust_watchers spawn nss ress watchers).1 key
         = some (spawn key)) ∧
    (adjust_watchers spawn nss ress watchers).2 =
      (watchers.filter
        (fun kv => !(nss.contains kv.1.1 && ress.contains kv.1.2))).map
        Prod.snd := by
  have hkeep : ∀ k : String × Resource,
      (nss.contains k.1 && ress.contains k.2) = true ↔
        (k.1 ∈ nss ∧ k.2 ∈ ress) := by
    intro k; simp
  refine ⟨?_, ?_, ?_, ?_⟩
  · intro key
    show (alookup (List.filter
        (fun kv => nss.contains kv.1.1 && ress.contains kv.1.2)
        ((nss.flatMap (fun ns => ress.map (fun r => (ns, r)))).foldl
          (fun ws key => if (alookup ws key).isSome then ws
                         else ws ++ [(key, spawn key)]) watchers)) key).isSome
      ↔ _
    rw [alookup_filter_keep]
    by_cases hk : (nss.contains key.1 && ress.contains key.2) = true
    · rw [if_pos hk]
      rw [hkeep] at hk
      constructor
      · intro _; exact hk
      · intro _
        exact spawn_foldl_covers spawn _ watchers key
          ((mem_nsProduct nss ress key).mpr hk)
    · rw [if_neg hk]
      simp only [Option.isSome_none, Bool.false_eq_true, false_iff]
      intro hc
      exact hk ((hkeep key).mpr hc)
  · intro key h1 h2 hsome
    show alookup (List.filter
        (fun kv => nss.contains kv.1.1 && ress.contains kv.1.2)
        ((nss.flatMap (fun ns => ress.map (fun r => (ns, r)))).foldl
          (fun ws key => if (alookup ws key).isSome then ws
                         else ws ++ [(key, spawn key)]) watchers)) key = _
    rw [alookup_filter_keep, if_pos ((hkeep key).mpr ⟨h1, h2⟩)]
    exact spawn_foldl_mono spawn _ watchers key hsome
  · intro key h1 h2 hnone
    show alookup (List.filter
        (fun kv => nss.contains kv.1.1 && ress.contains kv.1.2)
        ((nss.flatMap (fun ns => ress.map (fun r => (ns, r)))).foldl
          (fun ws key => if (alookup ws key).isSome then ws
                         else ws ++ [(key, spawn key)]) watchers)) key = _
    rw [alookup_filter_keep, if_pos ((hkeep key).mpr ⟨h1, h2⟩)]
    exact spawn_foldl_new spawn _ watchers key
      ((mem_nsProduct nss ress key).mpr ⟨h1, h2⟩) hnone
  · obtain ⟨news, hdec, hkeys⟩ := spawn_foldl_decomp spawn
      (nss.flatMap (fun ns => ress.map (fun r => (ns, r)))) watchers
    show (List.filter
        (fun kv => !(nss.contains kv.1.1 && ress.contains kv.1.2))
        ((nss.flatMap (fun ns => ress.map (fun r => (ns, r)))).foldl
          (fun ws key => if (alookup ws key).isSome then ws
                         else ws ++ [(key, spawn key)]) watchers)).map
        Prod.snd = _
    rw [hdec, List.filter_append, List.map_append]
    have hnil : news.filter
        (fun kv => !(nss.contains kv.1.1 && ress.contains kv.1.2)) = [] := by
      rw [List.filter_eq_nil_iff]
      intro kv hkv
      have hm := (mem_nsProduct nss ress kv.1).mp (hkeys kv hkv)
      have ht : (nss.contains kv.1.1 && ress.contains kv.1.2) = true :=
        (hkeep kv.1).mpr hm
      simp only [ht, Bool.not_true]
      exact Bool.false_ne_true
    rw [hnil, List.map_nil, List.append_nil]

/-- Witness for C9: one namespace and one resource; the stale watcher
keyed by the old namespace is cancelled, the new pair gets a spawned
task. -/
theorem c9_adjust_watchers_witness :
    ("n" : String) ∈ ["n"] ∧
    Resource.mk "g" "v" "pods" ∈ [Resource.mk "g" "v" "pods"] ∧
    alookup [((("m" : String), Resource.mk "g" "v" "pods"), (1 : Nat))]
      ("n", Resource.mk "g" "v" "pods") = none ∧
    alookup (adjust_watchers (fun _ => (0 : Nat)) ["n"]
      [Resource.mk "g" "v" "pods"]
      [((("m" : String), Resource.mk "g" "v" "pods"), 1)]).1
      ("n", Resource.mk "g" "v" "pods") = some 0 ∧
    (adjust_watchers (fun _ => (0 : Nat)) ["n"] [Resource.mk "g" "v" "pods"]
      [((("m" : String), Resource.mk "g" "v" "pods"), 1)]).2 = [1] := by
  have h := c9_adjust_watchers (fun _ => (0 : Nat)) ["n"]
    [Resource.mk "g" "v" "pods"]
    [((("m" : String), Resource.mk "g" "v" "pods"), 1)]
  refine ⟨by simp, by simp, by decide, ?_, ?_⟩
  · exact h.2.2.1 ("n", Resource.mk "g" "v" "pods") (by simp) (by simp)
      (by decide)
  · rw [h.2.2.2]; decide
